import Mathlib

/-!
# honey: a multi-port connection-capture daemon

A shallow embedding of `main.go` and its properties.

Conventions of the embedding.

* A Go `rune` (an `int32`) is an `Int`.  The program never does arithmetic on
  runes, so no wrap-around is involved.
* A Go string is represented by the sequence of runes that `range` yields over
  it, a `List Int`.  Lengths of strings are therefore counted in characters.
  The functions of package `path` work on bytes; they only ever compare a byte
  with `'/'` and `'.'`, which never occur inside a multi-byte character, so
  they are embedded over the same representation.
* Calls into the operating system (`net`, `os`, `time`) are answered by an
  explicit environment, and what a task does to the outside world is recorded
  as a list of events, in program order.
-/

namespace Honey

/-- A Go string, as the sequence of runes `range` yields over it. -/
abbrev GoString := List Int

/-- The Go string denoted by a literal of ASCII characters. -/
def str (s : String) : GoString := s.toList.map (fun c => (c.toNat : Int))

/-! ## `pathSafe` and `strings.Map` -/

/-- The function `pathSafe` of `main.go`:
```go
switch {
case r >= ' ' && ',' >= r: return '_'
case r >= '-' && '.' >= r:
case r >= '0' && ':' >= r:
case r >= 'A' && '~' >= r:
default: return -1
}
return r
```
with `' ' = 32`, `',' = 44`, `'-' = 45`, `'.' = 46`, `'0' = 48`, `':' = 58`,
`'A' = 65`, `'~' = 126` and `'_' = 95`. -/
def pathSafe (r : Int) : Int :=
  if r ≥ 32 ∧ 44 ≥ r then 95
  else if r ≥ 45 ∧ 46 ≥ r then r
  else if r ≥ 48 ∧ 58 ≥ r then r
  else if r ≥ 65 ∧ 126 ≥ r then r
  else -1

/-- The library function `strings.Map`: the mapping is applied to every
character of the string in turn, and a character whose image is negative is
dropped with no replacement. -/
def stringsMap (mapping : Int → Int) : GoString → GoString
  | [] => []
  | c :: s =>
    let r := mapping c
    if r ≥ 0 then r :: stringsMap mapping s else stringsMap mapping s

/-- The sanitiser as the capture task calls it: `strings.Map(pathSafe, s)`. -/
def sanitize (s : GoString) : GoString := stringsMap pathSafe s

/-- A character lies in one of the four ranges of the table. -/
def inTable (r : Int) : Bool :=
  (decide (32 ≤ r) && decide (r ≤ 44)) || (decide (45 ≤ r) && decide (r ≤ 46)) ||
  (decide (48 ≤ r) && decide (r ≤ 58)) || (decide (65 ≤ r) && decide (r ≤ 126))

/-- A character a sanitised string may hold: `'_'` or a character of one of
the three pass-through ranges. -/
def isSafeChar (r : Int) : Prop :=
  r = 95 ∨ (45 ≤ r ∧ r ≤ 46) ∨ (48 ≤ r ∧ r ≤ 58) ∨ (65 ≤ r ∧ r ≤ 126)

instance (r : Int) : Decidable (isSafeChar r) := by
  unfold isSafeChar; infer_instance

/-! ## Package `path`: `Clean`, `Join`, `Split`, `Base`, `Dir` -/

/-- The write buffer of `path.Clean` (a `lazybuf`) together with the index
`dotdot`: `rout` holds the bytes written so far, the last one first, so that
`out.w` is its length and `out.append` is `cons`. -/
structure CleanState where
  rout : List Int
  dotdot : Nat
  deriving DecidableEq, Repr

/-- The inner loop of the `..` case of `path.Clean`, entered after the first
`out.w--`; `b` is the byte `out.index(out.w)`, the one dropped last.
```go
for out.w > dotdot && out.index(out.w) != '/' { out.w-- }
``` -/
def backtrackLoop (dotdot : Nat) : List Int → Int → List Int
  | [], _ => []
  | c :: rout, b =>
    if (c :: rout).length > dotdot ∧ b ≠ 47 then backtrackLoop dotdot rout c else c :: rout

/-- The backtracking of the `..` case: `out.w--` and then the inner loop. -/
def backtrack (dotdot : Nat) (rout : List Int) : List Int :=
  match rout with
  | [] => []
  | b :: rout => backtrackLoop dotdot rout b

/-- The buffer after `if rooted && out.w != 1 || !rooted && out.w != 0
{ out.append('/') }`, the first statement of the default case. -/
def slashIfNeeded (rooted : Bool) (rout : List Int) : List Int :=
  if (rooted = true ∧ rout.length ≠ 1) ∨ (rooted = false ∧ rout.length ≠ 0) then 47 :: rout
  else rout

/-- The state after `if out.w > 0 { out.append('/') }; out.append('.');
out.append('.'); dotdot = out.w`, the case of a `..` that cannot backtrack. -/
def appendDotDot (rout : List Int) : CleanState :=
  let rout1 := if rout.length > 0 then 47 :: rout else rout
  ⟨46 :: 46 :: rout1, (46 :: 46 :: rout1).length⟩

/-- One turn of the main loop of `path.Clean`, the `switch` on the byte
`c = path[r]` in front of the unread part `rest = path[r+1:]`: the part left
unread and the buffer after the turn.
```go
switch {
case path[r] == '/': r++
case path[r] == '.' && (r+1 == n || path[r+1] == '/'): r++
case path[r] == '.' && path[r+1] == '.' && (r+2 == n || path[r+2] == '/'):
    r += 2
    switch {
    case out.w > dotdot: // backtrack
    case !rooted:
        if out.w > 0 { out.append('/') }
        out.append('.'); out.append('.'); dotdot = out.w
    }
default:
    if rooted && out.w != 1 || !rooted && out.w != 0 { out.append('/') }
    for ; r < n && path[r] != '/'; r++ { out.append(path[r]) }
}
``` -/
def cleanStep (rooted : Bool) (c : Int) (rest : GoString) (st : CleanState) :
    GoString × CleanState :=
  if c = 47 then (rest, st)
  else if c = 46 ∧ (rest = [] ∨ rest.head? = some 47) then (rest, st)
  else if c = 46 ∧ rest.head? = some 46 ∧ (rest.tail = [] ∨ rest.tail.head? = some 47) then
    if st.rout.length > st.dotdot then
      (rest.tail, ⟨backtrack st.dotdot st.rout, st.dotdot⟩)
    else if rooted = false then (rest.tail, appendDotDot st.rout)
    else (rest.tail, st)
  else
    ((c :: rest).dropWhile (fun x => x ≠ 47),
      ⟨((c :: rest).takeWhile (fun x => x ≠ 47)).reverse ++ slashIfNeeded rooted st.rout,
        st.dotdot⟩)

/-- The main loop of `path.Clean`, `for r < n { switch ... }`, over the unread
part `path[r:]` of the path; every turn reads at least one byte, and the fuel
counts the turns. -/
def cleanLoop (rooted : Bool) : Nat → GoString → CleanState → CleanState
  | 0, _, st => st
  | _ + 1, [], st => st
  | fuel + 1, c :: rest, st =>
    cleanLoop rooted fuel (cleanStep rooted c rest st).1 (cleanStep rooted c rest st).2

/-- The state `path.Clean` starts its main loop in. -/
def cleanInit (rooted : Bool) : CleanState :=
  if rooted then ⟨[47], 1⟩ else ⟨[], 0⟩

/-- The state of `path.Clean` when its main loop is left, for a path that is
not empty. -/
def cleanState (path : GoString) : CleanState :=
  let rooted : Bool := path.head? = some 47
  cleanLoop rooted path.length (if rooted then path.tail else path) (cleanInit rooted)

/-- The library function `path.Clean`. -/
def Clean (path : GoString) : GoString :=
  if path = [] then str "."
  else
    let st := cleanState path
    if st.rout.length = 0 then str "." else st.rout.reverse

/-- The library function `path.Join`: the elements that are not empty, joined
by `/`, and cleaned; the empty string when every element is empty. -/
def Join (elem : List GoString) : GoString :=
  let size := (elem.map List.length).sum
  if size = 0 then []
  else
    let buf := elem.foldl (fun (buf : GoString) e =>
      if buf.length > 0 ∨ e ≠ [] then (if buf.length > 0 then buf ++ [47] else buf) ++ e
      else buf) []
    Clean buf

/-- The library function `path.Split`: the path up to and with its last `/`,
and what follows it. -/
def Split (path : GoString) : GoString × GoString :=
  let file := (path.reverse.takeWhile (fun x => x ≠ 47)).reverse
  (path.take (path.length - file.length), file)

/-- The library function `path.Dir`. -/
def Dir (path : GoString) : GoString := Clean (Split path).1

/-- Strips the trailing slashes of a path, as `path.Base` does. -/
def stripTrailingSlashes (path : GoString) : GoString :=
  (path.reverse.dropWhile (fun x => x = 47)).reverse

/-- The library function `path.Base`. -/
def Base (path : GoString) : GoString :=
  if path = [] then str "."
  else
    let file := (Split (stripTrailingSlashes path)).2
    if file = [] then str "/" else file

/-- The main loop of `path.Clean` with the fuel it needs. -/
def cleanRun (rooted : Bool) (rest : GoString) (st : CleanState) : CleanState :=
  cleanLoop rooted rest.length rest st

/-- A path element that `path.Clean` copies: not empty, without `/`, and
neither `.` nor `..`. -/
def isPlainElement (e : GoString) : Prop :=
  e ≠ [] ∧ (47 : Int) ∉ e ∧ e ≠ [46] ∧ e ≠ [46, 46]

instance (e : GoString) : Decidable (isPlainElement e) := by
  unfold isPlainElement; infer_instance

/-- The states the main loop of `path.Clean` can be in: the initial one, a
state after a `..` that could not backtrack, and a state after an element was
copied. -/
inductive Canon (rooted : Bool) : CleanState → Prop
  | init : Canon rooted (cleanInit rooted)
  | dots (rout : List Int) : rooted = false → Canon rooted ⟨rout, rout.length⟩ →
      Canon rooted (appendDotDot rout)
  | elem (st : CleanState) (e : GoString) : Canon rooted st → isPlainElement e →
      Canon rooted ⟨e.reverse ++ slashIfNeeded rooted st.rout, st.dotdot⟩

/-- The path `name` is the entry `frag` of the directory `logs`: its last
element is `frag` and its directory is `logs`, in clean form. -/
def isDirectChild (logs name frag : GoString) : Prop :=
  Base name = frag ∧ Dir name = Clean logs

instance (logs name frag : GoString) : Decidable (isDirectChild logs name frag) := by
  unfold isDirectChild; infer_instance

/-! ## The target loop of `main` -/

/-- The library call `strings.Split(s, "/")`, for a separator of one
character: the pieces of `s` between the occurrences of the separator, at
least one piece. -/
def stringsSplit (sep : Int) : GoString → List GoString
  | [] => [[]]
  | c :: s =>
    if c = sep then [] :: stringsSplit sep s
    else
      match stringsSplit sep s with
      | [] => [[c]]
      | piece :: pieces => (c :: piece) :: pieces

/-- The digit loop of `parsePort` in package `net`, on the 32-bit unsigned
accumulator `n`; `none` stands for `return 0, true` (the service needs a
lookup), `some n` for the value of `n` when the loop is left.
```go
for _, d := range service {
    if '0' <= d && d <= '9' { d -= '0' } else { return 0, true }
    if n >= cutoff { n = max; break }
    n *= 10
    nn := n + uint32(d)
    if nn < n || nn > max { n = max; break }
    n = nn
}
```
with `max = 1<<32 - 1` and `cutoff = 1<<30`. -/
def parsePortLoop (n : Nat) : GoString → Option Nat
  | [] => some n
  | d :: service =>
    if 48 ≤ d ∧ d ≤ 57 then
      if n ≥ 2 ^ 30 then some (2 ^ 32 - 1)
      else
        let n10 := (n * 10) % 2 ^ 32
        let nn := (n10 + (d - 48).toNat) % 2 ^ 32
        if nn < n10 ∨ nn > 2 ^ 32 - 1 then some (2 ^ 32 - 1)
        else parsePortLoop nn service
    else none

/-- The function `parsePort` of package `net`: the service as a decimal
integer with an optional sign; `none` when the service needs a lookup.  An
empty service is port 0; a value of `cutoff` or more is clamped. -/
def parsePort (service : GoString) : Option Int :=
  match service with
  | [] => some 0
  | c :: rest =>
    let neg : Bool := decide (c = 45)
    let digits : GoString := if c = 43 ∨ c = 45 then rest else service
    match parsePortLoop 0 digits with
    | none => none
    | some n =>
      let port : Int :=
        if !neg ∧ n ≥ 2 ^ 30 then 2 ^ 30 - 1
        else if neg ∧ n > 2 ^ 30 then 2 ^ 30
        else (n : Int)
      some (if neg then -port else port)

deriving instance DecidableEq for Except

/-- The errors of `net.LookupPort`. -/
inductive LookupError where
  | unknownNetwork (network : GoString)
  | unknownPort (network service : GoString)
  | invalidPort (service : GoString)
  deriving DecidableEq, Repr

/-- The service database of the host: the answer of the resolver to a
network and a service name, `none` when the service is unknown. -/
abbrev Services := GoString → GoString → Option Int

/-- The library function `net.LookupPort(network, service)`: a service that
is a number is its own port; any other service is looked up for one of the
known networks; the port found has to lie in `0..65535`. -/
def LookupPort (services : Services) (network service : GoString) : Except LookupError Int :=
  let checked (port : Int) : Except LookupError Int :=
    if 0 > port ∨ port > 65535 then .error (.invalidPort service) else .ok port
  match parsePort service with
  | some port => checked port
  | none =>
    if network = str "tcp" ∨ network = str "tcp4" ∨ network = str "tcp6" ∨
        network = str "udp" ∨ network = str "udp4" ∨ network = str "udp6" ∨
        network = str "ip" ∨ network = str "" then
      let network := if network = str "" then str "ip" else network
      match services network service with
      | some port => checked port
      | none => .error (.unknownPort network service)
    else .error (.unknownNetwork network)

/-- What `main` does to the outside world, as far as the claims go. -/
inductive MainEvent where
  /-- The statement `go listenAndLog(port, proto)`. -/
  | startListener (port : Int) (proto : GoString)
  /-- The call `log.Fatalf("port %q proto %q invalid: %v", val, proto, err)`,
  which ends the process. -/
  | fatalInvalidPort (val proto : GoString) (err : LookupError)
  /-- The call `log.Fatal("no ports configured")`. -/
  | fatalNoPorts
  /-- The call `os.Mkdir(logs, 0770)`. -/
  | mkdir (dir : GoString)
  /-- The call `log.Fatalf("error creating directory %q: %v", logs, err)`. -/
  | fatalMkdir (dir : GoString)
  /-- The receive `<-signals`, where `main` blocks. -/
  | awaitSignal
  deriving DecidableEq, Repr

/-- The first statements of the body of the target loop of `main`, which parse
one target into the value and the protocol handed to `net.LookupPort`:
```go
proto := "tcp"
pair := strings.Split(arg, "/")
val := pair[0]
if len(pair) == 2 { proto = pair[1] }
```
The result is `(val, proto)`. -/
def splitTarget (arg : GoString) : GoString × GoString :=
  let pair := stringsSplit 47 arg
  let val := pair.headD []
  let proto := if pair.length = 2 then pair.getD 1 [] else str "tcp"
  (val, proto)

/-- The body of the target loop of `main` up to the decision: the port and
the protocol the listener is started for, or the fatal error. -/
def parseTarget (services : Services) (arg : GoString) :
    Except (GoString × GoString × LookupError) (Int × GoString) :=
  let (val, proto) := splitTarget arg
  match LookupPort services proto val with
  | .error err => .error (val, proto, err)
  | .ok port => .ok (port, proto)

/-- The target loop of `main`, `for _, arg := range args`, followed by the
wait for a signal: each target is parsed and its listener started at once;
the first target that does not resolve ends the process. -/
def targetLoop (services : Services) : List GoString → List MainEvent
  | [] => [.awaitSignal]
  | arg :: args =>
    match parseTarget services arg with
    | .error (val, proto, err) => [.fatalInvalidPort val proto err]
    | .ok (port, proto) => .startListener port proto :: targetLoop services args

/-- The function `main` after `flag.Parse()`: `logs` is the value of the flag,
`logsExists` tells whether `os.Stat(logs)` finds the directory and `mkdirOk`
whether `os.Mkdir` succeeds. -/
def mainRun (services : Services) (logs : GoString) (logsExists mkdirOk : Bool)
    (args : List GoString) : List MainEvent :=
  if args.length = 0 then [.fatalNoPorts]
  else if logsExists then targetLoop services args
  else if mkdirOk then .mkdir logs :: targetLoop services args
  else [.mkdir logs, .fatalMkdir logs]

/-- The decimal text of a natural number. -/
def decimal (n : Nat) : GoString :=
  if n = 0 then [48] else ((Nat.digits 10 n).reverse.map (fun (d : Nat) => 48 + (d : Int)))

/-- The listeners started in a run. -/
def startedListeners (events : List MainEvent) : List (Int × GoString) :=
  events.filterMap (fun e => match e with
    | .startListener port proto => some (port, proto)
    | _ => none)

/-- The run ended in the fatal configuration error of an invalid target. -/
def endsInFatalConfig (events : List MainEvent) : Prop :=
  ∃ val proto err, events.getLast? = some (.fatalInvalidPort val proto err)

/-! ## `listenAndLog` and the capture task -/

/-- An error value, with what the program asks of it: its text, whether the
assertion `err.(net.Error)` holds and, if so, the answer of `Timeout()`. -/
structure GoError where
  text : GoString
  isNetError : Bool
  timeout : Bool
  deriving DecidableEq, Repr

/-- The error `io.Copy` returns when its destination is a nil `*os.File`: the
library checks the file before it reads anything, and the `os.ErrInvalid` of
that check (`invalid argument`) comes back wrapped by the connection in a
`*net.OpError`, which is a `net.Error` whose `Timeout()` is false.  The text
kept here is that of the wrapped error. -/
def ErrNilFile : GoError := ⟨str "invalid argument", true, false⟩

/-- How the reads of a connection end: with `io.EOF` or with another error
(a timeout once the deadline has passed). -/
inductive StreamEnd where
  | eof
  | fail (err : GoError)
  deriving DecidableEq, Repr

/-- The lines the tasks hand to `log.Printf` and `log.Fatalf`, one
constructor for each format string of `listenAndLog`. -/
inductive LogMsg where
  /-- The line `"error resolving tcp address %q: %v"`. -/
  | errorResolving (address : GoString) (err : GoError)
  /-- The line `"error listening on tcp address %q: %v"`. -/
  | errorListening (address : GoString) (err : GoError)
  /-- The line `"error accepting connection on tcp address %q: %v"`. -/
  | errorAccepting (address : GoString) (err : GoError)
  /-- The line `"error setting connection deadline %q: %v"`. -/
  | errorSettingDeadline (address : GoString) (err : GoError)
  /-- The line `"error creating logfile %q: %v"`. -/
  | errorCreatingLogfile (name : GoString) (err : GoError)
  /-- The line `"starting connection, logging to: %s"`. -/
  | startingConnection (name : GoString)
  /-- The line `"closing connection %s"`. -/
  | closingConnection (name : GoString)
  /-- The line `"error copying connection: %v"`. -/
  | errorCopying (err : GoError)
  deriving DecidableEq, Repr

/-- What a listener task or a capture task does to the outside world. -/
inductive Event where
  /-- The call `fmt.Printf("Listening on %d/%s\n", port, proto)`. -/
  | printListening (port : Int) (proto : GoString)
  /-- The call `net.ResolveTCPAddr(proto, address)`. -/
  | resolveTCPAddr (proto address : GoString)
  /-- The call `net.ListenTCP(proto, addr)`. -/
  | listenTCP (proto address : GoString)
  /-- A call `listener.Accept()`. -/
  | accept
  /-- The statement `go func(c net.Conn) {...}(conn)` for the connection of
  the given number. -/
  | goCapture (conn : Nat)
  /-- A call of `log.Printf`. -/
  | logPrint (msg : LogMsg)
  /-- A call of `log.Fatalf`, which ends the process. -/
  | logFatal (msg : LogMsg)
  /-- The call `c.SetDeadline(t)`, the time in nanoseconds. -/
  | setDeadline (t : Int)
  /-- The call `os.Create(name)`. -/
  | createFile (name : GoString)
  /-- A call of `c.Read` that returned the data and no error. -/
  | read (data : List Int)
  /-- The call of `c.Read` that returned the error ending the stream. -/
  | readEnd (how : StreamEnd)
  /-- A call of `fd.Write` with the data, and the error it returned. -/
  | write (data : List Int) (err : Option GoError)
  /-- The deferred call `fd.Close()`. -/
  | closeFile
  /-- The deferred call `c.Close()`. -/
  | closeConn
  deriving DecidableEq, Repr

/-- What the outside world answers to a listener task: the errors of
`net.ResolveTCPAddr` and `net.ListenTCP`, and the results of the successive
calls of `Accept`, a connection number or an error.  When the results are
used up the task stays blocked in `Accept`. -/
structure ListenerEnv where
  resolveErr : Option GoError
  listenErr : Option GoError
  accepts : List (Except GoError Nat)

/-- The verb `%d` of `fmt` on an `int`. -/
def formatInt (n : Int) : GoString :=
  if n < 0 then 45 :: decimal (-n).toNat else decimal n.toNat

/-- The accept loop of `listenAndLog`, `for { conn, err := listener.Accept() ... }`. -/
def acceptLoop (address : GoString) : List (Except GoError Nat) → List Event
  | [] => [.accept]
  | .error err :: _ => [.accept, .logFatal (.errorAccepting address err)]
  | .ok conn :: rest => .accept :: .goCapture conn :: acceptLoop address rest

/-- The function `listenAndLog(port, proto)` of `main.go`, without the bodies
of the capture tasks it starts; `host` is the value of the flag.  The deferred
`listener.Close()` never runs: the accept loop is left by `log.Fatalf` only. -/
def listenAndLog (host : GoString) (env : ListenerEnv) (port : Int) (proto : GoString) :
    List Event :=
  .printListening port proto ::
    if proto = str "tcp" ∨ proto = str "tcp4" ∨ proto = str "tcp6" then
      let address := host ++ str ":" ++ formatInt port
      .resolveTCPAddr proto address ::
        match env.resolveErr with
        | some err => [.logFatal (.errorResolving address err)]
        | none =>
          .listenTCP proto address ::
            match env.listenErr with
            | some err => [.logFatal (.errorListening address err)]
            | none => acceptLoop address env.accepts
    else []

/-- What the outside world answers to the capture task of one accepted
connection: the time `time.Now()` returns, in nanoseconds; the error of
`c.SetDeadline`; the addresses of the connection; the error of `os.Create`;
the errors of the successive writes to the file; the data of the successive
reads of the connection and how they end. -/
structure Conn where
  now : Int
  setDeadlineErr : Option GoError
  localAddr : GoString
  remoteAddr : GoString
  createErr : Option GoError
  writeErrs : List (Option GoError)
  chunks : List (List Int)
  final : StreamEnd
  deriving DecidableEq, Repr

/-- The duration `time.Second`, in nanoseconds. -/
def second : Int := 1000000000

/-- The error `io.Copy` returns for the read that ended the stream: none for
`io.EOF`. -/
def streamError : StreamEnd → Option GoError
  | .eof => none
  | .fail err => some err

/-- A call `fd.Write(data)` on an open file: the error the outside world
answers, if any, and the answers left for the later writes. -/
def fileWrite : List (Option GoError) → Option GoError × List (Option GoError)
  | [] => (none, [])
  | err :: errs => (err, errs)

/-- The copy loop of `io.Copy` between a connection and an open file: the
events of the transfer and the error returned.
```go
for {
    nr, er := src.Read(buf)
    if nr > 0 {
        nw, ew := dst.Write(buf[0:nr])
        if ew != nil { err = ew; break }
    }
    if er != nil {
        if er != EOF { err = er }
        break
    }
}
``` -/
def copyLoop (writes : List (Option GoError)) (final : StreamEnd) :
    List (List Int) → List Event × Option GoError
  | [] => ([.readEnd final], streamError final)
  | data :: chunks =>
    if data.length > 0 then
      match fileWrite writes with
      | (some ew, _) => ([.read data, .write data (some ew)], some ew)
      | (none, writes1) =>
        let r := copyLoop writes1 final chunks
        (.read data :: .write data none :: r.1, r.2)
    else
      let r := copyLoop writes final chunks
      (.read data :: r.1, r.2)

/-- The library function `io.Copy(fd, c)`: the events of the transfer and the
error returned.  A nil file (`none`) is rejected before the connection is
read, whether it has data or not; an open file receives what the connection
sends until a read or a write returns an error. -/
def ioCopy (fd : Option (List (Option GoError))) (final : StreamEnd)
    (chunks : List (List Int)) : List Event × Option GoError :=
  match fd with
  | none => ([], some ErrNilFile)
  | some writes => copyLoop writes final chunks

/-- The name of the log file of a connection,
`path.Join(logs, strings.Map(pathSafe, fmt.Sprintf("%s_%s-%s", ...)))`;
`rfc3339` stands for `now.Format(time.RFC3339)`. -/
def logFileName (logs : GoString) (rfc3339 : Int → GoString) (c : Conn) : GoString :=
  Join [logs, sanitize (rfc3339 c.now ++ str "_" ++ c.localAddr ++ str "-" ++ c.remoteAddr)]

/-- The file handed to `io.Copy`: nil when `os.Create` failed. -/
def destination (c : Conn) : Option (List (Option GoError)) :=
  match c.createErr with
  | some _ => none
  | none => some c.writeErrs

/-- The lines logged for the error `io.Copy` returned. -/
def transferLog (name : GoString) : Option GoError → List Event
  | none => []
  | some err =>
    if err.isNetError ∧ err.timeout then [.logPrint (.closingConnection name)]
    else [.logPrint (.errorCopying err)]

/-- The capture task `go func(c net.Conn) {...}(conn)` of `listenAndLog`;
`logs` is the value of the flag and `address` the address of the listener. -/
def captureTask (logs address : GoString) (rfc3339 : Int → GoString) (c : Conn) : List Event :=
  let now := c.now
  .setDeadline (now + 10 * second) ::
    match c.setDeadlineErr with
    | some err => [.logPrint (.errorSettingDeadline address err), .closeConn]
    | none =>
      let name := logFileName logs rfc3339 c
      let created : List Event :=
        match c.createErr with
        | some err => [.createFile name, .logPrint (.errorCreatingLogfile name err)]
        | none => [.createFile name]
      let copied := ioCopy (destination c) c.final c.chunks
      created ++ [.logPrint (.startingConnection name)] ++ copied.1 ++
        transferLog name copied.2 ++ [.closeFile, .closeConn]

/-- The event is a call of `c.SetDeadline`. -/
def Event.isSetDeadline : Event → Bool
  | .setDeadline _ => true
  | _ => false

/-- The event is the start-of-connection notice. -/
def Event.isStartNotice : Event → Bool
  | .logPrint (.startingConnection _) => true
  | _ => false

/-- The event is a line of the log. -/
def Event.isLogLine : Event → Bool
  | .logPrint _ => true
  | .logFatal _ => true
  | _ => false

/-- The event ends the process. -/
def Event.isFatal : Event → Bool
  | .logFatal _ => true
  | _ => false

/-- The event is a call of `c.Read`. -/
def Event.isRead : Event → Bool
  | .read _ => true
  | .readEnd _ => true
  | _ => false

/-- The event is the read that reached the end of the stream of the
connection, its end-of-stream or the error of its deadline. -/
def Event.isReadEnd : Event → Bool
  | .readEnd _ => true
  | _ => false

/-- The lines logged after the start-of-connection notice. -/
def logLinesAfterStart (events : List Event) : List Event :=
  ((events.dropWhile (fun e => !e.isStartNotice)).drop 1).filter Event.isLogLine

/-! ### Connections of the examples -/

/-- A connection accepted at the time 5 s that sends `"hello"` and then runs
into its deadline. -/
def timedOutConn : Conn :=
  { now := 5000000000, setDeadlineErr := none,
    localAddr := str "10.0.0.1:80", remoteAddr := str "10.0.0.2:555",
    createErr := none, writeErrs := [], chunks := [str "hello"],
    final := .fail ⟨str "i/o timeout", true, true⟩ }

/-- A connection that sends `"hello"` and is then reset by its peer. -/
def resetConn : Conn :=
  { timedOutConn with final := .fail ⟨str "connection reset by peer", true, false⟩ }

/-- A connection that sends `"hello"` and is then closed by its peer. -/
def closedConn : Conn := { timedOutConn with final := .eof }

/-- A connection whose log file cannot be created and that sends `"hello"`
and `"world"` before it is closed by its peer. -/
def noFileConn : Conn :=
  { timedOutConn with
    createErr := some ⟨str "permission denied", false, false⟩
    chunks := [str "hello", str "world"], final := .eof }

/-- A connection whose deadline cannot be set. -/
def noDeadlineConn : Conn :=
  { timedOutConn with setDeadlineErr := some ⟨str "use of closed network connection", true, false⟩ }

/-! ### Lemmas on the sanitiser -/

theorem stringsMap_cons (f : Int → Int) (c : Int) (s : GoString) :
    stringsMap f (c :: s) = if f c ≥ 0 then f c :: stringsMap f s else stringsMap f s := rfl

theorem pathSafe_nonneg_iff (r : Int) : pathSafe r ≥ 0 ↔ inTable r = true := by
  unfold pathSafe inTable
  simp only [Bool.or_eq_true, Bool.and_eq_true, decide_eq_true_eq]
  split_ifs <;> omega

theorem pathSafe_safe (r : Int) (h : pathSafe r ≥ 0) : isSafeChar (pathSafe r) := by
  unfold pathSafe at h ⊢
  unfold isSafeChar
  split_ifs at h ⊢ <;> omega

theorem pathSafe_fixes_safe (r : Int) (h : isSafeChar r) : pathSafe r = r := by
  unfold isSafeChar at h
  unfold pathSafe
  split_ifs <;> omega

theorem sanitize_eq_filter_map (s : GoString) :
    sanitize s = (s.filter inTable).map pathSafe := by
  induction s with
  | nil => rfl
  | cons c s ih =>
    unfold sanitize at ih ⊢
    rw [stringsMap_cons]
    by_cases h : inTable c = true
    · rw [if_pos ((pathSafe_nonneg_iff c).2 h), List.filter_cons_of_pos h, List.map_cons, ih]
    · have h0 : ¬ pathSafe c ≥ 0 := fun hc => h ((pathSafe_nonneg_iff c).1 hc)
      rw [if_neg h0, List.filter_cons_of_neg h, ih]

theorem sanitize_all_safe (s : GoString) : ∀ c ∈ sanitize s, isSafeChar c := by
  induction s with
  | nil => intro c hc; cases hc
  | cons a s ih =>
    intro c hc
    unfold sanitize at ih hc
    rw [stringsMap_cons] at hc
    split_ifs at hc with h
    · rcases List.mem_cons.1 hc with rfl | hc
      · exact pathSafe_safe a h
      · exact ih c hc
    · exact ih c hc

theorem sanitize_of_all_safe (s : GoString) (h : ∀ c ∈ s, isSafeChar c) : sanitize s = s := by
  induction s with
  | nil => rfl
  | cons a s ih =>
    have ha : pathSafe a = a := pathSafe_fixes_safe a (h a (List.mem_cons_self a s))
    have ha0 : pathSafe a ≥ 0 := by
      have := h a (List.mem_cons_self a s)
      unfold isSafeChar at this
      omega
    unfold sanitize at ih ⊢
    rw [stringsMap_cons, if_pos ha0, ha, ih (fun c hc => h c (List.mem_cons_of_mem a hc))]

/-! ### Lemmas on the target loop -/

theorem stringsSplit_of_not_mem (sep : Int) (s : GoString) (h : sep ∉ s) :
    stringsSplit sep s = [s] := by
  induction s with
  | nil => rfl
  | cons c s ih =>
    have hc : c ≠ sep := fun e => h (e ▸ List.mem_cons_self c s)
    have hs : sep ∉ s := fun hm => h (List.mem_cons_of_mem c hm)
    simp [stringsSplit, hc, ih hs]

theorem stringsSplit_append_sep (sep : Int) (a b : GoString) (h : sep ∉ a) :
    stringsSplit sep (a ++ sep :: b) = a :: stringsSplit sep b := by
  induction a with
  | nil => simp [stringsSplit]
  | cons c a ih =>
    have hc : c ≠ sep := fun e => h (e ▸ List.mem_cons_self c a)
    have ha : sep ∉ a := fun hm => h (List.mem_cons_of_mem c hm)
    simp [stringsSplit, hc, ih ha]

theorem foldl_digits_ge (l : List Nat) : ∀ n : Nat, n ≤ l.foldl (fun a d => a * 10 + d) n := by
  induction l with
  | nil => intro n; exact le_refl n
  | cons d l ih =>
    intro n
    have := ih (n * 10 + d)
    simp only [List.foldl_cons]
    omega

theorem parsePortLoop_digits (l : List Nat) : ∀ n : Nat, (∀ d ∈ l, d < 10) →
    l.foldl (fun a d => a * 10 + d) n ≤ 65535 →
    parsePortLoop n (l.map (fun (d : Nat) => 48 + (d : Int))) =
      some (l.foldl (fun a d => a * 10 + d) n) := by
  induction l with
  | nil => intro n _ _; rfl
  | cons d l ih =>
    intro n hd hv
    have hd10 : d < 10 := hd d (List.mem_cons_self d l)
    have hge := foldl_digits_ge l (n * 10 + d)
    simp only [List.foldl_cons] at hv ⊢
    have hn : n * 10 + d ≤ 65535 := le_trans hge hv
    have h1 : (n * 10) % 2 ^ 32 = n * 10 := Nat.mod_eq_of_lt (by omega)
    have h2 : (n * 10 + d) % 2 ^ 32 = n * 10 + d := Nat.mod_eq_of_lt (by omega)
    have h3 : ((48 + d : Int) - 48).toNat = d := by omega
    have hdig : (48 : Int) ≤ 48 + (d : Int) ∧ (48 + d : Int) ≤ 57 := by omega
    have hcut : ¬ n ≥ 2 ^ 30 := by omega
    have hnn : ¬ (n * 10 + d < n * 10 ∨ n * 10 + d > 2 ^ 32 - 1) := by omega
    rw [List.map_cons, parsePortLoop, if_pos hdig, if_neg hcut]
    show (if (n * 10 % 2 ^ 32 + (48 + (d : Int) - 48).toNat) % 2 ^ 32 < n * 10 % 2 ^ 32 ∨
        (n * 10 % 2 ^ 32 + (48 + (d : Int) - 48).toNat) % 2 ^ 32 > 2 ^ 32 - 1 then some (2 ^ 32 - 1)
      else parsePortLoop ((n * 10 % 2 ^ 32 + (48 + (d : Int) - 48).toNat) % 2 ^ 32)
        (l.map (fun (d : Nat) => 48 + (d : Int)))) = _
    rw [h1, h3, h2, if_neg hnn]
    exact ih (n * 10 + d) (fun x hx => hd x (List.mem_cons_of_mem d hx)) hv

theorem foldl_reverse_digits (n : Nat) :
    (Nat.digits 10 n).reverse.foldl (fun a d => a * 10 + d) 0 = n := by
  rw [List.foldl_reverse]
  have h := Nat.ofDigits_digits 10 n
  rw [Nat.ofDigits_eq_foldr] at h
  have e : (fun (x y : Nat) => y * 10 + x) = (fun (x y : Nat) => ((x : Nat) : Nat) + 10 * y) := by
    funext x y
    show y * 10 + x = x + 10 * y
    omega
  rw [e]
  exact h

theorem decimal_pos (n : Nat) (h : 1 ≤ n) :
    decimal n = (Nat.digits 10 n).reverse.map (fun (d : Nat) => 48 + (d : Int)) := by
  unfold decimal
  rw [if_neg (by omega)]

theorem decimal_is_digit (n : Nat) : ∀ c ∈ decimal n, 48 ≤ c ∧ c ≤ 57 := by
  intro c hc
  unfold decimal at hc
  split_ifs at hc with h0
  · simp only [List.mem_singleton] at hc
    omega
  · rcases List.mem_map.1 hc with ⟨d, hd, rfl⟩
    have := Nat.digits_lt_base (by norm_num : 1 < 10) (List.mem_reverse.1 hd)
    omega

theorem decimal_ne_nil (n : Nat) : decimal n ≠ [] := by
  unfold decimal
  split_ifs with h0
  · simp
  · have hne : Nat.digits 10 n ≠ [] := Nat.digits_ne_nil_iff_ne_zero.2 h0
    simp only [ne_eq, List.map_eq_nil_iff, List.reverse_eq_nil_iff]
    exact hne

theorem parsePortLoop_decimal (n : Nat) (h1 : 1 ≤ n) (h2 : n ≤ 65535) :
    parsePortLoop 0 (decimal n) = some n := by
  rw [decimal_pos n h1]
  have hd : ∀ d ∈ (Nat.digits 10 n).reverse, d < 10 := fun d hd =>
    Nat.digits_lt_base (by norm_num : 1 < 10) (List.mem_reverse.1 hd)
  have := parsePortLoop_digits (Nat.digits 10 n).reverse 0 hd
    (by rw [foldl_reverse_digits]; exact h2)
  rw [foldl_reverse_digits] at this
  exact this

theorem parsePort_decimal (n : Nat) (h1 : 1 ≤ n) (h2 : n ≤ 65535) :
    parsePort (decimal n) = some (n : Int) := by
  have hloop := parsePortLoop_decimal n h1 h2
  have hdig := decimal_is_digit n
  cases hdec : decimal n with
  | nil => exact absurd hdec (decimal_ne_nil n)
  | cons c rest =>
    rw [hdec] at hloop hdig
    have hc := hdig c (List.mem_cons_self c rest)
    have hsign : ¬ (c = 43 ∨ c = 45) := by omega
    have hneg : ¬ c = 45 := by omega
    have hcut : ¬ n ≥ 2 ^ 30 := by omega
    simp only [parsePort, if_neg hsign, hloop, decide_eq_false hneg]
    have hcut2 : ¬ ((!false) = true ∧ n ≥ 2 ^ 30) := fun hh => hcut hh.2
    have hcut3 : ¬ (false = true ∧ n > 2 ^ 30) := fun hh => Bool.false_ne_true hh.1
    rw [if_neg hcut2, if_neg hcut3, if_neg Bool.false_ne_true]

theorem LookupPort_decimal (services : Services) (network : GoString) (n : Nat)
    (h1 : 1 ≤ n) (h2 : n ≤ 65535) :
    LookupPort services network (decimal n) = .ok (n : Int) := by
  have hr : ¬ ((0 : Int) > n ∨ (n : Int) > 65535) := by omega
  simp only [LookupPort, parsePort_decimal n h1 h2, if_neg hr]

theorem slash_not_mem_decimal (n : Nat) : (47 : Int) ∉ decimal n := by
  intro h
  have := decimal_is_digit n 47 h
  omega

theorem splitTarget_decimal (n : Nat) : splitTarget (decimal n) = (decimal n, str "tcp") := by
  unfold splitTarget
  rw [stringsSplit_of_not_mem 47 (decimal n) (slash_not_mem_decimal n)]
  rfl

theorem splitTarget_decimal_proto (n : Nat) (proto : GoString) (h : (47 : Int) ∉ proto) :
    splitTarget (decimal n ++ 47 :: proto) = (decimal n, proto) := by
  unfold splitTarget
  rw [stringsSplit_append_sep 47 (decimal n) proto (slash_not_mem_decimal n),
    stringsSplit_of_not_mem 47 proto h]
  rfl

theorem targetLoop_append (services : Services) (rest : List GoString) :
    ∀ (pre : List GoString) (rs : List (Int × GoString)),
    List.Forall₂ (fun a r => parseTarget services a = .ok r) pre rs →
    targetLoop services (pre ++ rest) =
      rs.map (fun r => MainEvent.startListener r.1 r.2) ++ targetLoop services rest := by
  intro pre rs h
  induction h with
  | nil => rfl
  | cons hr _ ih =>
    simp only [List.cons_append, targetLoop, hr, List.map_cons]
    exact congrArg _ ih

theorem exists_first_bad (services : Services) (args : List GoString)
    (h : ∃ arg ∈ args, ∃ e, parseTarget services arg = .error e) :
    ∃ pre bad post rs e, args = pre ++ bad :: post ∧
      List.Forall₂ (fun a r => parseTarget services a = .ok r) pre rs ∧
      parseTarget services bad = .error e := by
  induction args with
  | nil =>
    obtain ⟨arg, hmem, _⟩ := h
    cases hmem
  | cons a args ih =>
    cases hpa : parseTarget services a with
    | error e => exact ⟨[], a, args, [], e, rfl, List.Forall₂.nil, hpa⟩
    | ok r =>
      have h2 : ∃ arg ∈ args, ∃ e, parseTarget services arg = .error e := by
        obtain ⟨arg, hmem, e, he⟩ := h
        rcases List.mem_cons.1 hmem with rfl | hmem
        · rw [hpa] at he
          cases he
        · exact ⟨arg, hmem, e, he⟩
      obtain ⟨pre, bad, post, rs, e, hargs, hpre, hbad⟩ := ih h2
      exact ⟨a :: pre, bad, post, r :: rs, e, by rw [hargs]; rfl,
        List.Forall₂.cons hpa hpre, hbad⟩

theorem startedListeners_append (xs ys : List MainEvent) :
    startedListeners (xs ++ ys) = startedListeners xs ++ startedListeners ys := by
  unfold startedListeners
  exact List.filterMap_append xs ys _

theorem startedListeners_map_start (rs : List (Int × GoString)) :
    startedListeners (rs.map (fun r => MainEvent.startListener r.1 r.2)) = rs := by
  induction rs with
  | nil => rfl
  | cons r rs ih =>
    unfold startedListeners at ih ⊢
    simp only [List.map_cons, List.filterMap_cons, ih]

theorem mainRun_of_dir (services : Services) (logs : GoString) (mkdirOk : Bool)
    (args : List GoString) (h : args ≠ []) :
    mainRun services logs true mkdirOk args = targetLoop services args := by
  have hl : ¬ args.length = 0 := fun h0 => h (List.length_eq_zero.1 h0)
  simp only [mainRun, if_neg hl, if_true]

/-! ### Lemmas on package `path` -/

theorem takeWhile_append_sep (a q : GoString) :
    (a ++ 47 :: q).takeWhile (fun x => x ≠ 47) = a.takeWhile (fun x => x ≠ 47) := by
  induction a with
  | nil => simp
  | cons x a ih =>
    by_cases hx : x = 47
    · simp [hx]
    · simp only [List.cons_append, List.takeWhile_cons, ne_eq, hx, not_false_eq_true,
        decide_True, if_true, ih]

theorem dropWhile_append_sep (a q : GoString) :
    (a ++ 47 :: q).dropWhile (fun x => x ≠ 47) = a.dropWhile (fun x => x ≠ 47) ++ 47 :: q := by
  induction a with
  | nil => simp
  | cons x a ih =>
    by_cases hx : x = 47
    · simp [hx]
    · simp only [List.cons_append, List.dropWhile_cons, ne_eq, hx, not_false_eq_true,
        decide_True, if_true, ih]

theorem takeWhile_of_not_mem (e : GoString) (h : (47 : Int) ∉ e) :
    e.takeWhile (fun x => x ≠ 47) = e ∧ e.dropWhile (fun x => x ≠ 47) = [] := by
  induction e with
  | nil => exact ⟨rfl, rfl⟩
  | cons x e ih =>
    have hx : x ≠ 47 := fun hx => h (hx ▸ List.mem_cons_self x e)
    have := ih (fun hm => h (List.mem_cons_of_mem x hm))
    simp only [List.takeWhile_cons, List.dropWhile_cons, ne_eq, hx, not_false_eq_true,
      decide_True, if_true, this, and_self]

theorem cleanStep_length (rooted : Bool) (c : Int) (rest : GoString) (st : CleanState) :
    (cleanStep rooted c rest st).1.length ≤ rest.length := by
  unfold cleanStep
  split_ifs with h1 h2 h3 h4 h5
  · exact le_refl _
  · exact le_refl _
  · simp only [List.length_tail]; omega
  · simp only [List.length_tail]; omega
  · simp only [List.length_tail]; omega
  · have hc : c ≠ 47 := h1
    simp only [List.dropWhile_cons, ne_eq, hc, not_false_eq_true, decide_True, if_true]
    exact (List.dropWhile_sublist _).length_le

theorem cleanLoop_fuel (rooted : Bool) : ∀ (f1 : Nat) (rest : GoString) (st : CleanState)
    (f2 : Nat), rest.length ≤ f1 → rest.length ≤ f2 →
    cleanLoop rooted f1 rest st = cleanLoop rooted f2 rest st := by
  intro f1
  induction f1 with
  | zero =>
    intro rest st f2 h1 _
    have hnil : rest = [] := List.length_eq_zero.1 (Nat.le_zero.1 h1)
    subst hnil
    cases f2 <;> rfl
  | succ f1 ih =>
    intro rest st f2 h1 h2
    cases rest with
    | nil => cases f2 <;> rfl
    | cons c rest =>
      cases f2 with
      | zero => simp at h2
      | succ f2 =>
        have hlen := cleanStep_length rooted c rest st
        simp only [List.length_cons] at h1 h2
        simp only [cleanLoop]
        exact ih _ _ f2 (by omega) (by omega)

theorem cleanRun_nil (rooted : Bool) (st : CleanState) : cleanRun rooted [] st = st := rfl

theorem cleanRun_cons (rooted : Bool) (c : Int) (rest : GoString) (st : CleanState) :
    cleanRun rooted (c :: rest) st =
      cleanRun rooted (cleanStep rooted c rest st).1 (cleanStep rooted c rest st).2 := by
  unfold cleanRun
  simp only [List.length_cons, cleanLoop]
  exact cleanLoop_fuel rooted _ _ _ _ (cleanStep_length rooted c rest st) (le_refl _)

theorem cleanStep_append_sep (rooted : Bool) (c : Int) (p q : GoString) (st : CleanState) :
    cleanStep rooted c (p ++ 47 :: q) st =
      ((cleanStep rooted c p st).1 ++ 47 :: q, (cleanStep rooted c p st).2) := by
  have hdot : (p ++ 47 :: q = [] ∨ (p ++ 47 :: q).head? = some 47) ↔
      (p = [] ∨ p.head? = some 47) := by
    cases p with
    | nil => simp
    | cons x p => simp
  have hdd : ((p ++ 47 :: q).head? = some 46 ∧
        ((p ++ 47 :: q).tail = [] ∨ (p ++ 47 :: q).tail.head? = some 47)) ↔
      (p.head? = some 46 ∧ (p.tail = [] ∨ p.tail.head? = some 47)) := by
    cases p with
    | nil => simp
    | cons x p =>
      cases p with
      | nil => simp
      | cons y p => simp
  have htail : p.head? = some 46 → (p ++ 47 :: q).tail = p.tail ++ 47 :: q := by
    cases p with
    | nil => simp
    | cons x p => simp
  unfold cleanStep
  simp only [hdot, hdd]
  split_ifs with h1 h2 h3 h4 h5
  · rfl
  · rfl
  · rw [htail h3.2.1]
  · rw [htail h3.2.1]
  · rw [htail h3.2.1]
  · simp only [← List.cons_append, takeWhile_append_sep, dropWhile_append_sep]

theorem cleanRun_append_sep (rooted : Bool) : ∀ (n : Nat) (p q : GoString) (st : CleanState),
    p.length ≤ n →
    cleanRun rooted (p ++ 47 :: q) st = cleanRun rooted q (cleanRun rooted p st) := by
  intro n
  induction n with
  | zero =>
    intro p q st hp
    have hnil : p = [] := List.length_eq_zero.1 (Nat.le_zero.1 hp)
    subst hnil
    rw [List.nil_append, cleanRun_cons, cleanRun_nil]
    simp only [cleanStep, if_true]
  | succ n ih =>
    intro p q st hp
    cases p with
    | nil =>
      rw [List.nil_append, cleanRun_cons, cleanRun_nil]
      simp only [cleanStep, if_true]
    | cons c p =>
      have hlen := cleanStep_length rooted c p st
      simp only [List.length_cons] at hp
      rw [List.cons_append, cleanRun_cons, cleanStep_append_sep, cleanRun_cons]
      exact ih _ q _ (by omega)

theorem cleanRun_plain (rooted : Bool) (e : GoString) (st : CleanState)
    (h : isPlainElement e) :
    cleanRun rooted e st = ⟨e.reverse ++ slashIfNeeded rooted st.rout, st.dotdot⟩ := by
  obtain ⟨hne, hslash, hdot, hdotdot⟩ := h
  cases e with
  | nil => exact absurd rfl hne
  | cons c e =>
    have hc : c ≠ 47 := fun hc => hslash (hc ▸ List.mem_cons_self c e)
    have he : (47 : Int) ∉ e := fun hm => hslash (List.mem_cons_of_mem c hm)
    have h2 : ¬ (c = 46 ∧ (e = [] ∨ e.head? = some 47)) := by
      rintro ⟨rfl, he0 | he0⟩
      · exact hdot (by rw [he0])
      · cases e with
        | nil => simp at he0
        | cons x e =>
          simp only [List.head?_cons, Option.some.injEq] at he0
          exact he (he0 ▸ List.mem_cons_self x e)
    have h3 : ¬ (c = 46 ∧ e.head? = some 46 ∧ (e.tail = [] ∨ e.tail.head? = some 47)) := by
      rintro ⟨rfl, hh, ht⟩
      cases e with
      | nil => simp at hh
      | cons x e =>
        simp only [List.head?_cons, Option.some.injEq] at hh
        subst hh
        rcases ht with ht | ht
        · simp only [List.tail_cons] at ht
          exact hdotdot (by rw [ht])
        · cases e with
          | nil => simp at ht
          | cons y e =>
            simp only [List.tail_cons, List.head?_cons, Option.some.injEq] at ht
            exact he (ht ▸ List.mem_cons_of_mem _ (List.mem_cons_self y e))
    have htw := takeWhile_of_not_mem (c :: e) hslash
    rw [cleanRun_cons]
    simp only [cleanStep, if_neg hc, if_neg h2, if_neg h3, htw.1, htw.2, cleanRun_nil]

theorem slashIfNeeded_length (rooted : Bool) (rout : List Int) :
    rout.length ≤ (slashIfNeeded rooted rout).length := by
  unfold slashIfNeeded
  split_ifs <;> simp

theorem Canon.dotdot_le {rooted : Bool} {st : CleanState} (h : Canon rooted st) :
    st.dotdot ≤ st.rout.length := by
  induction h with
  | init => cases rooted <;> simp [cleanInit]
  | dots rout _ _ _ => simp [appendDotDot]
  | elem st e _ _ ih =>
    have := slashIfNeeded_length rooted st.rout
    simp only [List.length_append, List.length_reverse]
    omega

theorem getLast?_append_of_ne_nil (a b : List Int) (hb : b ≠ []) :
    (a ++ b).getLast? = b.getLast? := by
  cases b with
  | nil => exact absurd rfl hb
  | cons x b =>
    cases h : (x :: b).getLast? with
    | none => simp at h
    | some y => simp [List.getLast?_append, h]

theorem slashIfNeeded_of_ne_nil (rooted : Bool) (rout : List Int) (hne : rout ≠ []) :
    slashIfNeeded rooted rout ≠ [] ∧ (slashIfNeeded rooted rout).getLast? = rout.getLast? := by
  by_cases hs : (rooted = true ∧ rout.length ≠ 1) ∨ (rooted = false ∧ rout.length ≠ 0)
  · rw [slashIfNeeded, if_pos hs]
    refine ⟨List.cons_ne_nil _ _, ?_⟩
    cases rout with
    | nil => exact absurd rfl hne
    | cons x rout => exact List.getLast?_cons_cons
  · rw [slashIfNeeded, if_neg hs]
    exact ⟨hne, rfl⟩

theorem slashIfNeeded_unrooted_nil : slashIfNeeded false [] = [] := by
  simp [slashIfNeeded]

theorem Canon.rooted_shape {st : CleanState} (h : Canon true st) :
    st.rout ≠ [] ∧ st.dotdot = 1 ∧ st.rout.getLast? = some 47 := by
  induction h with
  | init => simp [cleanInit]
  | dots rout hroot _ _ => cases hroot
  | elem st e _ _ ih =>
    obtain ⟨hne, hdd, hlast⟩ := ih
    obtain ⟨hs, hsl⟩ := slashIfNeeded_of_ne_nil true st.rout hne
    refine ⟨?_, hdd, ?_⟩
    · simp [hs]
    · show (e.reverse ++ slashIfNeeded true st.rout).getLast? = some 47
      rw [getLast?_append_of_ne_nil _ _ hs, hsl, hlast]

theorem Canon.unrooted_shape {st : CleanState} (h : Canon false st) :
    st.rout.getLast? ≠ some 47 := by
  induction h with
  | init => simp [cleanInit]
  | dots rout _ _ ih =>
    have := ih
    unfold appendDotDot
    cases rout with
    | nil => simp
    | cons x rout =>
      simp only [List.length_cons, gt_iff_lt, Nat.zero_lt_succ, if_true]
      rw [show (46 : Int) :: 46 :: 47 :: x :: rout = [46, 46, 47] ++ (x :: rout) from rfl,
        getLast?_append_of_ne_nil _ _ (List.cons_ne_nil _ _)]
      exact this
  | elem st e _ hplain ih =>
    obtain ⟨hne, hslash, _, _⟩ := hplain
    show (e.reverse ++ slashIfNeeded false st.rout).getLast? ≠ some 47
    by_cases hrout : st.rout = []
    · rw [hrout, slashIfNeeded_unrooted_nil, List.append_nil, List.getLast?_reverse]
      cases e with
      | nil => exact absurd rfl hne
      | cons c e =>
        simp only [List.head?_cons, ne_eq, Option.some.injEq]
        exact fun hc => hslash (hc ▸ List.mem_cons_self c e)
    · obtain ⟨hs, hsl⟩ := slashIfNeeded_of_ne_nil false st.rout hrout
      rw [getLast?_append_of_ne_nil _ _ hs, hsl]
      exact ih

theorem backtrackLoop_cons (d : Nat) (c : Int) (rout : List Int) (b : Int) :
    backtrackLoop d (c :: rout) b =
      if (c :: rout).length > d ∧ b ≠ 47 then backtrackLoop d rout c else c :: rout := rfl

theorem backtrackLoop_to_slash (d : Nat) (r : List Int) (h : d ≤ r.length) :
    ∀ (xs : List Int) (b : Int), b ≠ 47 → (47 : Int) ∉ xs →
      backtrackLoop d (xs ++ 47 :: r) b = r := by
  intro xs
  induction xs with
  | nil =>
    intro b hb _
    have h1 : (47 :: r).length > d ∧ b ≠ 47 := ⟨by simp only [List.length_cons]; omega, hb⟩
    simp only [List.nil_append, backtrackLoop, if_pos h1]
    cases r with
    | nil => rfl
    | cons c r => simp [backtrackLoop]
  | cons y ys ih =>
    intro b hb hmem
    have hy : y ≠ 47 := fun hy => hmem (hy ▸ List.mem_cons_self y ys)
    have h1 : (y :: (ys ++ 47 :: r)).length > d ∧ b ≠ 47 :=
      ⟨by simp only [List.length_cons, List.length_append]; omega, hb⟩
    rw [List.cons_append, backtrackLoop_cons, if_pos h1]
    exact ih y hy (fun hm => hmem (List.mem_cons_of_mem y hm))

theorem backtrackLoop_to_dotdot (r : List Int) :
    ∀ (xs : List Int) (b : Int), b ≠ 47 → (47 : Int) ∉ xs →
      backtrackLoop r.length (xs ++ r) b = r := by
  intro xs
  induction xs with
  | nil =>
    intro b _ _
    cases r with
    | nil => rfl
    | cons c r => simp [backtrackLoop]
  | cons y ys ih =>
    intro b hb hmem
    have hy : y ≠ 47 := fun hy => hmem (hy ▸ List.mem_cons_self y ys)
    have h1 : (y :: (ys ++ r)).length > r.length ∧ b ≠ 47 :=
      ⟨by simp only [List.length_cons, List.length_append]; omega, hb⟩
    rw [List.cons_append, backtrackLoop_cons, if_pos h1]
    exact ih y hy (fun hm => hmem (List.mem_cons_of_mem y hm))

theorem backtrack_plain_slash (d : Nat) (r : List Int) (e : GoString) (h : d ≤ r.length)
    (he : isPlainElement e) : backtrack d (e.reverse ++ 47 :: r) = r := by
  obtain ⟨hne, hslash, _, _⟩ := he
  have hrev : e.reverse ≠ [] := by simpa using hne
  cases hx : e.reverse with
  | nil => exact absurd hx hrev
  | cons x xs =>
    have hmem : ∀ y ∈ x :: xs, y ≠ 47 := by
      intro y hy h47
      rw [← hx, List.mem_reverse] at hy
      exact hslash (h47 ▸ hy)
    simp only [List.cons_append, backtrack]
    exact backtrackLoop_to_slash d r h xs x (hmem x (List.mem_cons_self x xs))
      (fun hm => hmem 47 (List.mem_cons_of_mem x hm) rfl)

theorem backtrack_plain_first (r : List Int) (e : GoString) (he : isPlainElement e) :
    backtrack r.length (e.reverse ++ r) = r := by
  obtain ⟨hne, hslash, _, _⟩ := he
  have hrev : e.reverse ≠ [] := by simpa using hne
  cases hx : e.reverse with
  | nil => exact absurd hx hrev
  | cons x xs =>
    have hmem : ∀ y ∈ x :: xs, y ≠ 47 := by
      intro y hy h47
      rw [← hx, List.mem_reverse] at hy
      exact hslash (h47 ▸ hy)
    simp only [List.cons_append, backtrack]
    exact backtrackLoop_to_dotdot r xs x (hmem x (List.mem_cons_self x xs))
      (fun hm => hmem 47 (List.mem_cons_of_mem x hm) rfl)

/-- A state in which no slash is needed before an element is the initial
one. -/
theorem Canon.eq_init_of_no_slash {rooted : Bool} {st : CleanState} (h : Canon rooted st)
    (hs : ¬ ((rooted = true ∧ st.rout.length ≠ 1) ∨ (rooted = false ∧ st.rout.length ≠ 0))) :
    st = cleanInit rooted := by
  cases rooted with
  | true =>
    obtain ⟨hne, hdd, hlast⟩ := h.rooted_shape
    have hlen : st.rout.length = 1 := by
      by_contra hl
      exact hs (Or.inl ⟨rfl, hl⟩)
    obtain ⟨rout, dotdot⟩ := st
    simp only at hne hdd hlast hlen
    match rout, hlen with
    | [x], _ =>
      simp only [List.getLast?_singleton, Option.some.injEq] at hlast
      subst hlast hdd
      rfl
  | false =>
    have hlen : st.rout.length = 0 := by
      by_contra hl
      exact hs (Or.inr ⟨rfl, hl⟩)
    have hdd := h.dotdot_le
    obtain ⟨rout, dotdot⟩ := st
    simp only at hlen hdd
    have hnil : rout = [] := List.length_eq_zero.1 hlen
    subst hnil
    have : dotdot = 0 := by simpa using hdd
    subst this
    rfl

theorem Canon.of_backtrack {rooted : Bool} {st : CleanState} (h : Canon rooted st)
    (hlen : st.rout.length > st.dotdot) :
    Canon rooted ⟨backtrack st.dotdot st.rout, st.dotdot⟩ := by
  cases h with
  | init => cases rooted <;> simp [cleanInit] at hlen
  | dots rout _ _ => simp [appendDotDot] at hlen
  | elem st0 e h0 he =>
    have hle := h0.dotdot_le
    by_cases hs : (rooted = true ∧ st0.rout.length ≠ 1) ∨ (rooted = false ∧ st0.rout.length ≠ 0)
    · simp only [slashIfNeeded, if_pos hs]
      rw [backtrack_plain_slash st0.dotdot st0.rout e hle he]
      exact h0
    · have hinit := h0.eq_init_of_no_slash hs
      simp only [slashIfNeeded, if_neg hs]
      have hdd : st0.dotdot = st0.rout.length := by
        rw [hinit]
        cases rooted <;> rfl
      rw [hdd, backtrack_plain_first st0.rout e he, ← hdd]
      exact h0

theorem takeWhile_isPlainElement (c : Int) (rest : GoString) (h1 : ¬ c = 47)
    (h2 : ¬ (c = 46 ∧ (rest = [] ∨ rest.head? = some 47)))
    (h3 : ¬ (c = 46 ∧ rest.head? = some 46 ∧ (rest.tail = [] ∨ rest.tail.head? = some 47))) :
    isPlainElement ((c :: rest).takeWhile (fun x => x ≠ 47)) := by
  have hcons : (c :: rest).takeWhile (fun x => x ≠ 47) =
      c :: rest.takeWhile (fun x => x ≠ 47) := by
    simp only [List.takeWhile_cons, ne_eq, h1, not_false_eq_true, decide_True, if_true]
  have hnil : ∀ l : GoString, l.takeWhile (fun x => x ≠ 47) = [] → l = [] ∨ l.head? = some 47 := by
    intro l hl
    cases l with
    | nil => exact Or.inl rfl
    | cons x l =>
      by_cases hx : x = 47
      · exact Or.inr (by rw [hx]; rfl)
      · simp [List.takeWhile_cons, hx] at hl
  refine ⟨?_, ?_, ?_, ?_⟩
  · rw [hcons]
    exact List.cons_ne_nil _ _
  · intro hm
    have := List.mem_takeWhile_imp hm
    simp at this
  · rw [hcons]
    intro heq
    simp only [List.cons.injEq] at heq
    exact h2 ⟨heq.1, hnil rest heq.2⟩
  · rw [hcons]
    intro heq
    simp only [List.cons.injEq] at heq
    obtain ⟨hc, hrest⟩ := heq
    cases rest with
    | nil => simp at hrest
    | cons x rest =>
      by_cases hx : x = 47
      · simp [List.takeWhile_cons, hx] at hrest
      · simp only [List.takeWhile_cons, ne_eq, hx, not_false_eq_true, decide_True, if_true,
          List.cons.injEq] at hrest
        exact h3 ⟨hc, by rw [hrest.1]; rfl, hnil rest hrest.2⟩

theorem Canon.of_step {rooted : Bool} {st : CleanState} (h : Canon rooted st) (c : Int)
    (rest : GoString) : Canon rooted (cleanStep rooted c rest st).2 := by
  unfold cleanStep
  split_ifs with h1 h2 h3 h4 h5
  · exact h
  · exact h
  · exact h.of_backtrack h4
  · have hle := h.dotdot_le
    have hst : st = ⟨st.rout, st.rout.length⟩ := by
      obtain ⟨rout, dotdot⟩ := st
      simp only at h4 hle ⊢
      congr
      omega
    rw [hst] at h
    exact Canon.dots st.rout h5 h
  · exact h
  · exact Canon.elem st _ h (takeWhile_isPlainElement c rest h1 h2 h3)

theorem Canon.of_cleanLoop {rooted : Bool} : ∀ (fuel : Nat) (rest : GoString) (st : CleanState),
    Canon rooted st → Canon rooted (cleanLoop rooted fuel rest st) := by
  intro fuel
  induction fuel with
  | zero => intro rest st h; exact h
  | succ fuel ih =>
    intro rest st h
    cases rest with
    | nil => exact h
    | cons c rest => exact ih _ _ (h.of_step c rest)

theorem cleanState_eq_run (path : GoString) :
    cleanState path =
      cleanRun (decide (path.head? = some 47))
        (if decide (path.head? = some 47) = true then path.tail else path)
        (cleanInit (decide (path.head? = some 47))) := by
  unfold cleanState cleanRun
  apply cleanLoop_fuel
  · split_ifs
    · simp only [List.length_tail]; omega
    · exact le_refl _
  · exact le_refl _

theorem Canon.of_cleanState (path : GoString) :
    Canon (decide (path.head? = some 47)) (cleanState path) :=
  Canon.of_cleanLoop _ _ _ Canon.init

theorem cleanRun_dotdot (st : CleanState) (h : ¬ st.rout.length > st.dotdot) :
    cleanRun false [46, 46] st = appendDotDot st.rout := by
  rw [cleanRun_cons]
  simp [cleanStep, h, cleanRun_nil]

/-- A state of the main loop is reproduced when the loop reads the path the
state holds. -/
theorem Canon.fixed {rooted : Bool} {st : CleanState} (h : Canon rooted st) :
    cleanRun rooted (if rooted = true then st.rout.reverse.tail else st.rout.reverse)
      (cleanInit rooted) = st := by
  induction h with
  | init => cases rooted <;> rfl
  | dots rout hr _ ih =>
    subst hr
    simp only [Bool.false_eq_true, if_false] at ih ⊢
    cases rout with
    | nil => rfl
    | cons x r =>
      have hrev : (appendDotDot (x :: r)).rout.reverse = (x :: r).reverse ++ 47 :: [46, 46] := by
        simp [appendDotDot]
      rw [hrev, cleanRun_append_sep false _ _ _ _ (le_refl _), ih,
        cleanRun_dotdot _ (by simp)]
  | elem st0 e h0 he ih =>
    by_cases hs : (rooted = true ∧ st0.rout.length ≠ 1) ∨ (rooted = false ∧ st0.rout.length ≠ 0)
    · have hrev : (e.reverse ++ slashIfNeeded rooted st0.rout).reverse =
          st0.rout.reverse ++ 47 :: e := by
        rw [slashIfNeeded, if_pos hs]
        simp
      have hin : (if rooted = true then (st0.rout.reverse ++ 47 :: e).tail
            else st0.rout.reverse ++ 47 :: e) =
          (if rooted = true then st0.rout.reverse.tail else st0.rout.reverse) ++ 47 :: e := by
        cases rooted with
        | false => rfl
        | true =>
          have hne : st0.rout.reverse ≠ [] := by
            simpa using h0.rooted_shape.1
          simp only [if_true]
          exact List.tail_append_of_ne_nil hne
      show cleanRun rooted (if rooted = true then
          (e.reverse ++ slashIfNeeded rooted st0.rout).reverse.tail
          else (e.reverse ++ slashIfNeeded rooted st0.rout).reverse) (cleanInit rooted) = _
      rw [hrev, hin, cleanRun_append_sep rooted _ _ _ _ (le_refl _), ih,
        cleanRun_plain rooted e st0 he]
    · have hinit := h0.eq_init_of_no_slash hs
      have hno : slashIfNeeded rooted st0.rout = st0.rout := by
        rw [slashIfNeeded, if_neg hs]
      have hin : (if rooted = true then (e.reverse ++ st0.rout).reverse.tail
            else (e.reverse ++ st0.rout).reverse) = e := by
        rw [hinit]
        cases rooted <;> simp [cleanInit]
      show cleanRun rooted (if rooted = true then
          (e.reverse ++ slashIfNeeded rooted st0.rout).reverse.tail
          else (e.reverse ++ slashIfNeeded rooted st0.rout).reverse) (cleanInit rooted) = _
      rw [hno, hin, cleanRun_plain rooted e _ he, ← hinit, hno]

theorem Canon.head_reverse {rooted : Bool} {st : CleanState} (h : Canon rooted st) :
    decide (st.rout.reverse.head? = some 47) = rooted := by
  cases rooted with
  | true =>
    have := h.rooted_shape.2.2
    simp only [List.head?_reverse, this, decide_True]
  | false =>
    have := h.unrooted_shape
    simp only [List.head?_reverse, this, decide_False]

/-- The function `path.Clean` returns its argument when it is applied to one
of its results. -/
theorem Clean_idempotent (path : GoString) : Clean (Clean path) = Clean path := by
  by_cases hp : path = []
  · subst hp
    decide
  · have hcan := Canon.of_cleanState path
    unfold Clean
    rw [if_neg hp]
    simp only
    by_cases h0 : (cleanState path).rout.length = 0
    · rw [if_pos h0]
      decide
    · rw [if_neg h0]
      have hne : (cleanState path).rout.reverse ≠ [] := by
        intro hnil
        apply h0
        rw [List.reverse_eq_nil_iff] at hnil
        rw [hnil]
        rfl
      rw [if_neg hne]
      have hst : Honey.cleanState (cleanState path).rout.reverse = cleanState path := by
        rw [cleanState_eq_run (cleanState path).rout.reverse, hcan.head_reverse]
        exact hcan.fixed
      rw [hst, if_neg h0]

set_option maxRecDepth 100000 in
/-- The embedding of `path.Clean` returns what the library returns on the
paths of the table of its tests and on a few more with dots. -/
theorem Clean_library_table :
    Clean (str "") = str "." ∧
  Clean (str "abc") = str "abc" ∧
  Clean (str "abc/def") = str "abc/def" ∧
  Clean (str ".") = str "." ∧
  Clean (str "..") = str ".." ∧
  Clean (str "../..") = str "../.." ∧
  Clean (str "../../abc") = str "../../abc" ∧
  Clean (str "/abc") = str "/abc" ∧
  Clean (str "/") = str "/" ∧
  Clean (str "abc/") = str "abc" ∧
  Clean (str "abc/def/") = str "abc/def" ∧
  Clean (str "./") = str "." ∧
  Clean (str "../") = str ".." ∧
  Clean (str "../../") = str "../.." ∧
  Clean (str "/abc/") = str "/abc" ∧
  Clean (str "abc//def//ghi") = str "abc/def/ghi" ∧
  Clean (str "//abc") = str "/abc" ∧
  Clean (str "///abc") = str "/abc" ∧
  Clean (str "//abc//") = str "/abc" ∧
  Clean (str "abc//") = str "abc" ∧
  Clean (str "abc/./def") = str "abc/def" ∧
  Clean (str "/./abc/def") = str "/abc/def" ∧
  Clean (str "abc/.") = str "abc" ∧
  Clean (str "abc/def/ghi/../jkl") = str "abc/def/jkl" ∧
  Clean (str "abc/def/../ghi/../jkl") = str "abc/jkl" ∧
  Clean (str "abc/def/..") = str "abc" ∧
  Clean (str "abc/def/../..") = str "." ∧
  Clean (str "/abc/def/../..") = str "/" ∧
  Clean (str "abc/def/../../..") = str ".." ∧
  Clean (str "/abc/def/../../..") = str "/" ∧
  Clean (str "abc/def/../../../ghi/jkl/../../../mno") = str "../../mno" ∧
  Clean (str "abc/./../def") = str "def" ∧
  Clean (str "abc//./../def") = str "def" ∧
  Clean (str "abc/../../././../def") = str "../../def" ∧
  Clean (str "/..") = str "/" ∧
  Clean (str "/../a") = str "/a" ∧
  Clean (str ".a") = str ".a" ∧
  Clean (str "..a/b") = str "..a/b" ∧
  Clean (str "a/..b/..") = str "a" ∧
  Clean (str "...") = str "..." := by decide

theorem Join_pair (logs frag : GoString) (hf : frag ≠ []) :
    Join [logs, frag] = Clean (if logs = [] then frag else logs ++ 47 :: frag) := by
  have hsize : ¬ (List.map List.length [logs, frag]).sum = 0 := by
    have := List.length_pos.2 hf
    simp only [List.map_cons, List.map_nil, List.sum_cons, List.sum_nil]
    omega
  unfold Join
  simp only [if_neg hsize]
  by_cases hl : logs = []
  · subst hl
    simp [hf]
  · have hpos : logs.length > 0 := List.length_pos.2 hl
    simp [hl, hpos]

theorem Clean_of_state (path : GoString) (hp : path ≠ []) (hs : (cleanState path).rout ≠ []) :
    Clean path = (cleanState path).rout.reverse := by
  have h0 : ¬ (cleanState path).rout.length = 0 := fun h => hs (List.length_eq_zero.1 h)
  unfold Clean
  rw [if_neg hp]
  simp only [if_neg h0]

theorem cleanState_append_plain (logs frag : GoString) (hl : logs ≠ [])
    (h : isPlainElement frag) :
    cleanState (logs ++ 47 :: frag) =
      ⟨frag.reverse ++ slashIfNeeded (decide (logs.head? = some 47)) (cleanState logs).rout,
        (cleanState logs).dotdot⟩ := by
  have hhead : (logs ++ 47 :: frag).head? = logs.head? := by
    cases logs with
    | nil => exact absurd rfl hl
    | cons x logs => rfl
  have htail : (logs ++ 47 :: frag).tail = logs.tail ++ 47 :: frag :=
    List.tail_append_of_ne_nil hl
  rw [cleanState_eq_run, hhead, cleanState_eq_run logs]
  have hin : (if decide (logs.head? = some 47) = true then (logs ++ 47 :: frag).tail
        else logs ++ 47 :: frag) =
      (if decide (logs.head? = some 47) = true then logs.tail else logs) ++ 47 :: frag := by
    split_ifs
    · exact htail
    · rfl
  rw [hin, cleanRun_append_sep _ _ _ _ _ (le_refl _), cleanRun_plain _ frag _ h]

theorem cleanState_plain (frag : GoString) (h : isPlainElement frag) :
    cleanState frag = ⟨frag.reverse, 0⟩ := by
  have hhead : decide (frag.head? = some 47) = false := by
    obtain ⟨hne, hslash, _, _⟩ := h
    cases frag with
    | nil => exact absurd rfl hne
    | cons c e =>
      have hc : c ≠ 47 := fun hc => hslash (hc ▸ List.mem_cons_self c e)
      simp [hc]
  rw [cleanState_eq_run, hhead]
  simp only [Bool.false_eq_true, if_false]
  rw [cleanRun_plain false frag _ h]
  simp [cleanInit, slashIfNeeded]

theorem Clean_plain (frag : GoString) (h : isPlainElement frag) : Clean frag = frag := by
  have hne : frag ≠ [] := h.1
  have hst := cleanState_plain frag h
  rw [Clean_of_state frag hne (by rw [hst]; simpa using hne), hst]
  simp

theorem Clean_trailing_slash (path : GoString) (hp : path ≠ []) :
    Clean (path ++ [47]) = Clean path := by
  have hhead : (path ++ [47]).head? = path.head? := by
    cases path with
    | nil => exact absurd rfl hp
    | cons x path => rfl
  have hst : cleanState (path ++ [47]) = cleanState path := by
    rw [cleanState_eq_run, hhead, cleanState_eq_run path]
    have hin : (if decide (path.head? = some 47) = true then (path ++ [47]).tail
          else path ++ [47]) =
        (if decide (path.head? = some 47) = true then path.tail else path) ++ 47 :: [] := by
      split_ifs
      · exact List.tail_append_of_ne_nil hp
      · rfl
    rw [hin, cleanRun_append_sep _ _ _ _ _ (le_refl _), cleanRun_nil]
  have hne : path ++ [47] ≠ [] := by simp
  unfold Clean
  rw [if_neg hp, if_neg hne, hst]

theorem Split_append_plain (dir frag : GoString) (h : (47 : Int) ∉ frag) :
    Split (dir ++ 47 :: frag) = (dir ++ [47], frag) := by
  have hrev : (dir ++ 47 :: frag).reverse = frag.reverse ++ 47 :: dir.reverse := by simp
  have hmem : (47 : Int) ∉ frag.reverse := fun hm => h (List.mem_reverse.1 hm)
  have hfile : ((dir ++ 47 :: frag).reverse.takeWhile (fun x => x ≠ 47)).reverse = frag := by
    rw [hrev, takeWhile_append_sep, (takeWhile_of_not_mem _ hmem).1, List.reverse_reverse]
  unfold Split
  simp only [hfile]
  have hlen : (dir ++ 47 :: frag).length - frag.length = (dir ++ [47]).length := by
    simp only [List.length_append, List.length_cons, List.length_nil]
    omega
  rw [hlen, show dir ++ 47 :: frag = (dir ++ [47]) ++ frag by simp, List.take_left]

theorem Split_plain (frag : GoString) (h : (47 : Int) ∉ frag) : Split frag = ([], frag) := by
  have hmem : (47 : Int) ∉ frag.reverse := fun hm => h (List.mem_reverse.1 hm)
  unfold Split
  simp only [(takeWhile_of_not_mem _ hmem).1, List.reverse_reverse, Nat.sub_self, List.take_zero]

theorem stripTrailingSlashes_of_plain_end (dir frag : GoString) (h : isPlainElement frag) :
    stripTrailingSlashes (dir ++ frag) = dir ++ frag := by
  obtain ⟨hne, hslash, _, _⟩ := h
  have hrev : frag.reverse ≠ [] := by simpa using hne
  unfold stripTrailingSlashes
  rw [List.reverse_append]
  cases hx : frag.reverse with
  | nil => exact absurd hx hrev
  | cons x xs =>
    have hx47 : x ≠ 47 := by
      intro h47
      have : x ∈ frag.reverse := by rw [hx]; exact List.mem_cons_self x xs
      exact hslash (h47 ▸ List.mem_reverse.1 this)
    have hfrag : frag = (x :: xs).reverse := by rw [← hx, List.reverse_reverse]
    simp only [List.cons_append, List.dropWhile_cons, hx47, decide_False]
    simp [hfrag]

theorem Base_append_plain (dir frag : GoString) (h : isPlainElement frag) :
    Base (dir ++ 47 :: frag) = frag := by
  have hne : dir ++ 47 :: frag ≠ [] := by simp
  unfold Base
  rw [if_neg hne]
  simp only
  rw [show dir ++ 47 :: frag = (dir ++ [47]) ++ frag by simp,
    stripTrailingSlashes_of_plain_end _ frag h,
    show (dir ++ [47]) ++ frag = dir ++ 47 :: frag by simp,
    Split_append_plain dir frag h.2.1]
  simp only [if_neg h.1]

theorem Base_plain (frag : GoString) (h : isPlainElement frag) : Base frag = frag := by
  unfold Base
  rw [if_neg h.1]
  simp only
  have := stripTrailingSlashes_of_plain_end [] frag h
  rw [List.nil_append] at this
  rw [this, Split_plain frag h.2.1]
  simp only [if_neg h.1]

/-- The path `path.Join(logs, frag)` of a plain element `frag` names the entry
`frag` of the directory `logs`: its last element is `frag` and its directory
is the clean form of `logs`. -/
theorem Join_plain_child (logs frag : GoString) (h : isPlainElement frag) :
    Base (Join [logs, frag]) = frag ∧ Dir (Join [logs, frag]) = Clean logs := by
  rw [Join_pair logs frag h.1]
  by_cases hl : logs = []
  · subst hl
    simp only [if_true]
    rw [Clean_plain frag h]
    refine ⟨Base_plain frag h, ?_⟩
    unfold Dir
    rw [Split_plain frag h.2.1]
  · rw [if_neg hl]
    have hcan := Canon.of_cleanState logs
    have hne : logs ++ 47 :: frag ≠ [] := by simp
    have hst := cleanState_append_plain logs frag hl h
    have hrout : (cleanState (logs ++ 47 :: frag)).rout ≠ [] := by
      rw [hst]
      simpa using fun hf _ => h.1 hf
    rw [Clean_of_state _ hne hrout, hst]
    by_cases hs : (decide (logs.head? = some 47) = true ∧ (cleanState logs).rout.length ≠ 1) ∨
        (decide (logs.head? = some 47) = false ∧ (cleanState logs).rout.length ≠ 0)
    · have hroutL : (cleanState logs).rout ≠ [] := by
        rcases hs with ⟨hr, _⟩ | ⟨_, hlen⟩
        · rw [hr] at hcan
          exact hcan.rooted_shape.1
        · exact fun hnil => hlen (by rw [hnil]; rfl)
      have hname : (frag.reverse ++ slashIfNeeded (decide (logs.head? = some 47))
          (cleanState logs).rout).reverse = (cleanState logs).rout.reverse ++ 47 :: frag := by
        rw [slashIfNeeded, if_pos hs]
        simp
      have hclean : Clean logs = (cleanState logs).rout.reverse := Clean_of_state logs hl hroutL
      simp only [hname]
      refine ⟨Base_append_plain _ frag h, ?_⟩
      unfold Dir
      rw [Split_append_plain _ frag h.2.1]
      simp only
      rw [Clean_trailing_slash _ (by simpa using hroutL), ← hclean, Clean_idempotent]
    · have hinit := hcan.eq_init_of_no_slash hs
      have hname : (frag.reverse ++ slashIfNeeded (decide (logs.head? = some 47))
          (cleanState logs).rout).reverse = (cleanState logs).rout.reverse ++ frag := by
        rw [slashIfNeeded, if_neg hs]
        simp
      simp only [hname]
      cases hr : decide (logs.head? = some 47) with
      | true =>
        rw [hr] at hinit
        have hclean : Clean logs = [47] := by
          rw [Clean_of_state logs hl (by rw [hinit]; simp [cleanInit]), hinit]
          rfl
        rw [hinit, hclean]
        refine ⟨Base_append_plain [] frag h, ?_⟩
        unfold Dir
        rw [show (cleanInit true).rout.reverse ++ frag = [] ++ 47 :: frag from rfl,
          Split_append_plain [] frag h.2.1]
        show Clean [47] = [47]
        decide
      | false =>
        rw [hr] at hinit
        have hclean : Clean logs = [46] := by
          unfold Clean
          rw [if_neg hl]
          simp only [hinit]
          rfl
        rw [hinit, hclean]
        refine ⟨Base_plain frag h, ?_⟩
        unfold Dir
        rw [show (cleanInit false).rout.reverse ++ frag = frag from rfl,
          Split_plain frag h.2.1]
        show Clean [] = [46]
        decide

/-! ### Lemmas on the capture task -/

theorem copyLoop_events_plain (final : StreamEnd) (chunks : List (List Int)) :
    ∀ (writes : List (Option GoError)), ∀ e ∈ (copyLoop writes final chunks).1,
      e.isSetDeadline = false ∧ e.isLogLine = false ∧ e.isStartNotice = false ∧
      e.isFatal = false := by
  induction chunks with
  | nil =>
    intro writes e he
    simp only [copyLoop, List.mem_singleton] at he
    subst he
    exact ⟨rfl, rfl, rfl, rfl⟩
  | cons data chunks ih =>
    intro writes e he
    unfold copyLoop at he
    split_ifs at he with hlen
    · cases hw : fileWrite writes with
      | mk ew writes1 =>
        cases ew with
        | some ew =>
          rw [hw] at he
          simp only [List.mem_cons, List.mem_singleton, List.not_mem_nil, or_false] at he
          rcases he with rfl | rfl <;> exact ⟨rfl, rfl, rfl, rfl⟩
        | none =>
          rw [hw] at he
          simp only [List.mem_cons] at he
          rcases he with rfl | rfl | he
          · exact ⟨rfl, rfl, rfl, rfl⟩
          · exact ⟨rfl, rfl, rfl, rfl⟩
          · exact ih writes1 e he
    · simp only [List.mem_cons] at he
      rcases he with rfl | he
      · exact ⟨rfl, rfl, rfl, rfl⟩
      · exact ih writes e he

theorem ioCopy_events_plain (final : StreamEnd) (chunks : List (List Int)) :
    ∀ (fd : Option (List (Option GoError))), ∀ e ∈ (ioCopy fd final chunks).1,
      e.isSetDeadline = false ∧ e.isLogLine = false ∧ e.isStartNotice = false ∧
      e.isFatal = false := by
  intro fd e he
  cases fd with
  | none => cases he
  | some writes => exact copyLoop_events_plain final chunks writes e he

theorem filter_eq_nil_of_all_false {α : Type} (f : α → Bool) (l : List α)
    (h : ∀ e ∈ l, f e = false) : l.filter f = [] := by
  induction l with
  | nil => rfl
  | cons a l ih =>
    have ha : ¬ f a = true := by
      rw [h a (List.mem_cons_self a l)]
      exact Bool.false_ne_true
    rw [List.filter_cons_of_neg ha]
    exact ih (fun e he => h e (List.mem_cons_of_mem a he))

theorem dropWhile_not_start_of_all_false (l rest : List Event) (name : GoString)
    (h : ∀ e ∈ l, e.isStartNotice = false) :
    (l ++ Event.logPrint (.startingConnection name) :: rest).dropWhile
      (fun e => !e.isStartNotice) = Event.logPrint (.startingConnection name) :: rest := by
  induction l with
  | nil => rfl
  | cons a l ih =>
    have ha : (!a.isStartNotice) = true := by
      rw [h a (List.mem_cons_self a l)]
      rfl
    rw [List.cons_append, List.dropWhile_cons]
    simp only [ha, if_true]
    exact ih (fun e he => h e (List.mem_cons_of_mem a he))

theorem transferLog_all_log (name : GoString) (err : Option GoError) :
    (transferLog name err).filter Event.isLogLine = transferLog name err := by
  cases err with
  | none => rfl
  | some e =>
    simp only [transferLog]
    split_ifs <;> rfl

theorem transferLog_no_fatal (name : GoString) (err : Option GoError) :
    ∀ e ∈ transferLog name err, e.isFatal = false ∧ e.isSetDeadline = false := by
  intro e he
  cases err with
  | none => cases he
  | some x =>
    simp only [transferLog] at he
    split_ifs at he <;>
    · simp only [List.mem_singleton] at he
      subst he
      exact ⟨rfl, rfl⟩

/-- The events of the capture task once the deadline is set: what precedes
the start notice, the notice, the transfer, its log line and the deferred
calls. -/
theorem captureTask_of_deadline_set (logs address : GoString) (rfc3339 : Int → GoString)
    (c : Conn) (h : c.setDeadlineErr = none) :
    ∃ created : List Event,
      (created = [.createFile (logFileName logs rfc3339 c)] ∨
        ∃ err, c.createErr = some err ∧
          created = [.createFile (logFileName logs rfc3339 c),
            .logPrint (.errorCreatingLogfile (logFileName logs rfc3339 c) err)]) ∧
      captureTask logs address rfc3339 c =
        (.setDeadline (c.now + 10 * second) :: created) ++
          .logPrint (.startingConnection (logFileName logs rfc3339 c)) ::
          ((ioCopy (destination c) c.final c.chunks).1 ++
            (transferLog (logFileName logs rfc3339 c)
              (ioCopy (destination c) c.final c.chunks).2 ++ [.closeFile, .closeConn])) := by
  cases hc : c.createErr with
  | none =>
    refine ⟨_, Or.inl rfl, ?_⟩
    simp only [captureTask, h, hc, List.append_assoc, List.cons_append, List.nil_append,
      List.singleton_append]
  | some err =>
    refine ⟨_, Or.inr ⟨err, rfl, rfl⟩, ?_⟩
    simp only [captureTask, h, hc, List.append_assoc, List.cons_append, List.nil_append,
      List.singleton_append]

theorem sanitize_append (a b : GoString) : sanitize (a ++ b) = sanitize a ++ sanitize b := by
  rw [sanitize_eq_filter_map, sanitize_eq_filter_map, sanitize_eq_filter_map,
    List.filter_append, List.map_append]

theorem sanitize_isPlainElement (s : GoString) (h1 : sanitize s ≠ [])
    (h2 : sanitize s ≠ [46]) (h3 : sanitize s ≠ [46, 46]) : isPlainElement (sanitize s) := by
  refine ⟨h1, ?_, h2, h3⟩
  intro hm
  have := sanitize_all_safe s 47 hm
  unfold isSafeChar at this
  omega

theorem sanitize_format_isPlainElement (ts la ra : GoString) :
    isPlainElement (sanitize (ts ++ str "_" ++ la ++ str "-" ++ ra)) := by
  have hmem : (95 : Int) ∈ sanitize (ts ++ str "_" ++ la ++ str "-" ++ ra) := by
    rw [sanitize_append, sanitize_append, sanitize_append, sanitize_append]
    have : sanitize (str "_") = [95] := by decide
    rw [this]
    simp
  apply sanitize_isPlainElement
  · intro h
    rw [h] at hmem
    cases hmem
  · intro h
    rw [h] at hmem
    simp at hmem
  · intro h
    rw [h] at hmem
    simp at hmem

/-! ## Claims on the sanitiser -/

/-- C1: `pathSafe` follows the range table exactly.  A character from `' '`
to `','` is mapped to `'_'`; a character from `'-'` to `'.'`, from `'0'` to
`':'` or from `'A'` to `'~'` is returned unchanged; every character outside
these four ranges is mapped to the drop marker `-1`. -/
theorem pathSafe_range_table (r : Int) :
    ((32 ≤ r ∧ r ≤ 44) → pathSafe r = 95) ∧
    (((45 ≤ r ∧ r ≤ 46) ∨ (48 ≤ r ∧ r ≤ 58) ∨ (65 ≤ r ∧ r ≤ 126)) → pathSafe r = r) ∧
    (¬ ((32 ≤ r ∧ r ≤ 44) ∨ (45 ≤ r ∧ r ≤ 46) ∨ (48 ≤ r ∧ r ≤ 58) ∨ (65 ≤ r ∧ r ≤ 126)) →
      pathSafe r = -1) := by
  unfold pathSafe
  refine ⟨?_, ?_, ?_⟩ <;> intro h <;> split_ifs <;> omega

/-- Instances of C1: a space becomes `'_'`, the letter `'a'` is kept, and
`'/'`, `';'`, `'@'`, a newline, DEL and a non-ASCII character are dropped. -/
theorem pathSafe_range_table_witness :
    pathSafe 32 = 95 ∧ pathSafe 97 = 97 ∧ pathSafe 47 = -1 ∧ pathSafe 59 = -1 ∧
    pathSafe 64 = -1 ∧ pathSafe 10 = -1 ∧ pathSafe 127 = -1 ∧ pathSafe 233 = -1 :=
  ⟨(pathSafe_range_table 32).1 (by decide),
   (pathSafe_range_table 97).2.1 (by decide),
   (pathSafe_range_table 47).2.2 (by decide),
   (pathSafe_range_table 59).2.2 (by decide),
   (pathSafe_range_table 64).2.2 (by decide),
   (pathSafe_range_table 10).2.2 (by decide),
   (pathSafe_range_table 127).2.2 (by decide),
   (pathSafe_range_table 233).2.2 (by decide)⟩

/-- C2: sanitising removes exactly the characters outside the four ranges and
keeps the others in their order: the result is the list of in-range characters
of the input, each replaced by its image; a character survives exactly when it
is in range; the length of the result is the length of the input minus the
number of out-of-range characters; and `" -0A\n"` sanitises to `"_-0A"`, one
character shorter. -/
theorem sanitize_drops_out_of_range (s : GoString) :
    sanitize s = (s.filter inTable).map pathSafe ∧
    (sanitize s).length = s.length - s.countP (fun c => !inTable c) ∧
    (sanitize s).length + s.countP (fun c => !inTable c) = s.length ∧
    sanitize [32, 45, 48, 65, 10] = [95, 45, 48, 65] ∧
    sanitize (str " -0A\n") = str "_-0A" ∧
    (sanitize (str " -0A\n")).length + 1 = (str " -0A\n").length := by
  have hlen : (sanitize s).length + s.countP (fun c => !inTable c) = s.length := by
    rw [sanitize_eq_filter_map, List.length_map, ← List.countP_eq_length_filter]
    have hc : s.countP (fun c => !inTable c) = s.countP (fun a => decide (¬ inTable a = true)) := by
      congr 1
      funext a
      cases inTable a <;> simp
    rw [hc]
    exact (List.length_eq_countP_add_countP (fun c => inTable c) s).symm
  refine ⟨sanitize_eq_filter_map s, ?_, hlen, by decide, by decide, by decide⟩
  omega



/-! ## Claims on the target loop -/

/-- C3: a target that is the decimal text of a port number `n` in `1..65535`,
with no `/`, parses to the value itself and the protocol `"tcp"`, resolves to
the port `n`, and `main`, run with this one target and the log directory in
place, starts a listener for exactly `(n, "tcp")`. -/
theorem target_without_protocol (services : Services) (logs : GoString) (n : Nat)
    (h1 : 1 ≤ n) (h2 : n ≤ 65535) :
    splitTarget (decimal n) = (decimal n, str "tcp") ∧
    parseTarget services (decimal n) = .ok ((n : Int), str "tcp") ∧
    mainRun services logs true true [decimal n] =
      [.startListener (n : Int) (str "tcp"), .awaitSignal] ∧
    startedListeners (mainRun services logs true true [decimal n]) = [((n : Int), str "tcp")] := by
  have hp : parseTarget services (decimal n) = .ok ((n : Int), str "tcp") := by
    simp only [parseTarget, splitTarget_decimal, LookupPort_decimal services _ n h1 h2]
  have hm : mainRun services logs true true [decimal n] =
      [.startListener (n : Int) (str "tcp"), .awaitSignal] := by
    rw [mainRun_of_dir services logs true _ (List.cons_ne_nil _ _)]
    simp only [targetLoop, hp]
  refine ⟨splitTarget_decimal n, hp, hm, ?_⟩
  rw [hm]
  rfl

/-- An instance of C3: the target `"8080"`. -/
theorem target_without_protocol_witness :
    decimal 8080 = str "8080" ∧
    (splitTarget (decimal 8080) = (decimal 8080, str "tcp") ∧
    parseTarget (fun _ _ => none) (decimal 8080) = .ok (((8080 : Nat) : Int), str "tcp") ∧
    mainRun (fun _ _ => none) (str "logs") true true [decimal 8080] =
      [.startListener ((8080 : Nat) : Int) (str "tcp"), .awaitSignal] ∧
    startedListeners (mainRun (fun _ _ => none) (str "logs") true true [decimal 8080]) =
      [(((8080 : Nat) : Int), str "tcp")]) :=
  ⟨by simp [decimal, str],
   target_without_protocol (fun _ _ => none) (str "logs") 8080 (by decide) (by decide)⟩

/-- C4: a target `"N/proto"`, where `N` is the decimal text of a port number
`n` in `1..65535` and `proto` is `"tcp"`, `"tcp4"` or `"tcp6"`, parses to the
value `N` and exactly the protocol `proto`, and resolves to the port `n`. -/
theorem target_with_protocol (services : Services) (n : Nat) (proto : GoString)
    (h1 : 1 ≤ n) (h2 : n ≤ 65535)
    (hp : proto = str "tcp" ∨ proto = str "tcp4" ∨ proto = str "tcp6") :
    splitTarget (decimal n ++ 47 :: proto) = (decimal n, proto) ∧
    parseTarget services (decimal n ++ 47 :: proto) = .ok ((n : Int), proto) := by
  have hs : (47 : Int) ∉ proto := by
    rcases hp with rfl | rfl | rfl <;> decide
  have hsplit := splitTarget_decimal_proto n proto hs
  refine ⟨hsplit, ?_⟩
  simp only [parseTarget, hsplit, LookupPort_decimal services _ n h1 h2]

/-- An instance of C4: the target `"8080/tcp6"`. -/
theorem target_with_protocol_witness :
    decimal 8080 ++ 47 :: str "tcp6" = str "8080/tcp6" ∧
    (splitTarget (decimal 8080 ++ 47 :: str "tcp6") = (decimal 8080, str "tcp6") ∧
    parseTarget (fun _ _ => none) (decimal 8080 ++ 47 :: str "tcp6") =
      .ok (((8080 : Nat) : Int), str "tcp6")) :=
  ⟨by simp [decimal, str],
   target_with_protocol (fun _ _ => none) 8080 (str "tcp6") (by decide) (by decide)
     (Or.inr (Or.inr rfl))⟩

/-- C5, as stated, fails: with the targets `"80"` and `"not-a-port"`, in this
order, the second target does not resolve and `main` ends in the fatal
configuration error, but the listener for `(80, "tcp")` has been started
before. -/
theorem listener_started_before_fatal :
    parseTarget (fun _ _ => none) (str "not-a-port") =
      .error (str "not-a-port", str "tcp", .unknownPort (str "tcp") (str "not-a-port")) ∧
    mainRun (fun _ _ => none) (str "logs") true true [str "80", str "not-a-port"] =
      [.startListener 80 (str "tcp"),
       .fatalInvalidPort (str "not-a-port") (str "tcp")
         (.unknownPort (str "tcp") (str "not-a-port"))] ∧
    startedListeners
      (mainRun (fun _ _ => none) (str "logs") true true [str "80", str "not-a-port"]) =
      [(80, str "tcp")] := by
  decide

/-- C5, amended: when some configured target does not resolve, `main` (with
the log directory in place) ends in the fatal configuration error at the first
such target; the listeners started are exactly those of the targets before
it, in order, and no listener is started for it or for any later target. -/
theorem fatal_at_first_bad_target (services : Services) (logs : GoString)
    (args : List GoString)
    (h : ∃ arg ∈ args, ∃ e, parseTarget services arg = .error e) :
    ∃ pre bad post rs val proto err, args = pre ++ bad :: post ∧
      List.Forall₂ (fun a r => parseTarget services a = .ok r) pre rs ∧
      parseTarget services bad = .error (val, proto, err) ∧
      mainRun services logs true true args =
        rs.map (fun r => MainEvent.startListener r.1 r.2) ++
          [.fatalInvalidPort val proto err] ∧
      endsInFatalConfig (mainRun services logs true true args) ∧
      startedListeners (mainRun services logs true true args) = rs := by
  obtain ⟨pre, bad, post, rs, ⟨val, proto, err⟩, hargs, hpre, hbad⟩ :=
    exists_first_bad services args h
  have hne : args ≠ [] := by
    rw [hargs]
    exact fun hnil => List.cons_ne_nil _ _ (List.append_eq_nil.1 hnil).2
  have hrun : mainRun services logs true true args =
      rs.map (fun r => MainEvent.startListener r.1 r.2) ++
        [.fatalInvalidPort val proto err] := by
    rw [mainRun_of_dir services logs true args hne, hargs,
      targetLoop_append services (bad :: post) pre rs hpre]
    simp only [targetLoop, hbad]
  refine ⟨pre, bad, post, rs, val, proto, err, hargs, hpre, hbad, hrun, ?_, ?_⟩
  · rw [hrun]
    exact ⟨val, proto, err, by simp⟩
  · rw [hrun, startedListeners_append, startedListeners_map_start]
    exact List.append_nil rs

/-- An instance of C5 as amended: the targets `"80"`, `"not-a-port"`, `"81"`. -/
theorem fatal_at_first_bad_target_witness :
    ∃ pre bad post rs val proto err,
      [str "80", str "not-a-port", str "81"] = pre ++ bad :: post ∧
      List.Forall₂ (fun a r => parseTarget (fun _ _ => none) a = .ok r) pre rs ∧
      parseTarget (fun _ _ => none) bad = .error (val, proto, err) ∧
      mainRun (fun _ _ => none) (str "logs") true true
          [str "80", str "not-a-port", str "81"] =
        rs.map (fun r => MainEvent.startListener r.1 r.2) ++
          [.fatalInvalidPort val proto err] ∧
      endsInFatalConfig (mainRun (fun _ _ => none) (str "logs") true true
          [str "80", str "not-a-port", str "81"]) ∧
      startedListeners (mainRun (fun _ _ => none) (str "logs") true true
          [str "80", str "not-a-port", str "81"]) = rs :=
  fatal_at_first_bad_target (fun _ _ => none) (str "logs")
    [str "80", str "not-a-port", str "81"]
    ⟨str "not-a-port", by decide, _, (by decide : parseTarget (fun _ _ => none) (str "not-a-port") =
      .error (str "not-a-port", str "tcp", .unknownPort (str "tcp") (str "not-a-port")))⟩




/-! ## Claims on the listener and the capture task -/

/-- C6, as stated, fails: started for port 53 and the protocol `"udp"`,
`listenAndLog` prints the line `Listening on 53/udp` to the standard output,
so the task is not without output. -/
theorem udp_listener_prints :
    listenAndLog (str "0.0.0.0") ⟨none, none, []⟩ 53 (str "udp") =
      [.printListening 53 (str "udp")] ∧
    listenAndLog (str "0.0.0.0") ⟨none, none, []⟩ 53 (str "udp") ≠ [] := by
  decide

/-- C6, amended: for every port and every protocol other than `"tcp"`,
`"tcp4"` and `"tcp6"`, `listenAndLog` prints the line `Listening on
<port>/<proto>` to the standard output and does nothing else: it resolves no
address, does not listen or accept, logs no line and raises no error. -/
theorem non_tcp_listener_only_prints (host : GoString) (env : ListenerEnv) (port : Int)
    (proto : GoString)
    (h : proto ≠ str "tcp" ∧ proto ≠ str "tcp4" ∧ proto ≠ str "tcp6") :
    listenAndLog host env port proto = [.printListening port proto] ∧
    (∀ e ∈ listenAndLog host env port proto,
      e.isLogLine = false ∧ e.isFatal = false ∧ e ≠ .accept ∧
      (∀ a b, e ≠ .resolveTCPAddr a b ∧ e ≠ .listenTCP a b)) := by
  have hno : ¬ (proto = str "tcp" ∨ proto = str "tcp4" ∨ proto = str "tcp6") := by
    rintro (h1 | h1 | h1)
    · exact h.1 h1
    · exact h.2.1 h1
    · exact h.2.2 h1
  have heq : listenAndLog host env port proto = [.printListening port proto] := by
    simp only [listenAndLog, if_neg hno]
  refine ⟨heq, ?_⟩
  intro e he
  rw [heq, List.mem_singleton] at he
  subst he
  refine ⟨rfl, rfl, by simp, fun a b => ⟨by simp, by simp⟩⟩

/-- An instance of C6 as amended: port 53 and the protocol `"udp"`. -/
theorem non_tcp_listener_only_prints_witness :
    listenAndLog (str "0.0.0.0") ⟨none, none, [.ok 0]⟩ 53 (str "udp") =
      [.printListening 53 (str "udp")] ∧
    (∀ e ∈ listenAndLog (str "0.0.0.0") ⟨none, none, [.ok 0]⟩ 53 (str "udp"),
      e.isLogLine = false ∧ e.isFatal = false ∧ e ≠ .accept ∧
      (∀ a b, e ≠ .resolveTCPAddr a b ∧ e ≠ .listenTCP a b)) :=
  non_tcp_listener_only_prints (str "0.0.0.0") ⟨none, none, [.ok 0]⟩ 53 (str "udp")
    (by decide)

/-- C7: the capture task of every accepted connection calls `SetDeadline`
first, with the time `now + 10 s`, where `now` is the one timestamp taken at
the start of the task, the same that is formatted into the file name; this is
the only call of `SetDeadline` in the whole task, whatever the transfer
reads and writes. -/
theorem deadline_set_once (logs address : GoString) (rfc3339 : Int → GoString) (c : Conn) :
    (captureTask logs address rfc3339 c).head? = some (.setDeadline (c.now + 10000000000)) ∧
    (captureTask logs address rfc3339 c).filter Event.isSetDeadline =
      [.setDeadline (c.now + 10 * second)] ∧
    (∀ e ∈ (captureTask logs address rfc3339 c).drop 1, e.isSetDeadline = false) ∧
    (c.setDeadlineErr = none →
      Event.createFile (Join [logs, sanitize
        (rfc3339 c.now ++ str "_" ++ c.localAddr ++ str "-" ++ c.remoteAddr)]) ∈
        captureTask logs address rfc3339 c) := by
  have htail : ∀ e ∈ (captureTask logs address rfc3339 c).drop 1, e.isSetDeadline = false := by
    intro e he
    cases hd : c.setDeadlineErr with
    | some err =>
      simp only [captureTask, hd, List.drop_succ_cons, List.drop_zero, List.mem_cons,
        List.mem_singleton, List.not_mem_nil, or_false] at he
      rcases he with rfl | rfl <;> rfl
    | none =>
      obtain ⟨created, hcr, hrun⟩ := captureTask_of_deadline_set logs address rfc3339 c hd
      rw [hrun] at he
      simp only [List.cons_append, List.drop_succ_cons, List.drop_zero, List.mem_append,
        List.mem_cons, List.mem_singleton, List.not_mem_nil, or_false] at he
      rcases he with he | rfl | he | he | rfl | rfl
      · rcases hcr with rfl | ⟨err, _, rfl⟩
        · simp only [List.mem_singleton] at he
          subst he
          rfl
        · simp only [List.mem_cons, List.mem_singleton, List.not_mem_nil, or_false] at he
          rcases he with rfl | rfl <;> rfl
      · rfl
      · exact (ioCopy_events_plain _ _ _ e he).1
      · exact (transferLog_no_fatal _ _ e he).2
      · rfl
      · rfl
  have hshape : captureTask logs address rfc3339 c =
      .setDeadline (c.now + 10 * second) :: (captureTask logs address rfc3339 c).drop 1 := by
    simp only [captureTask, List.drop_succ_cons, List.drop_zero]
  refine ⟨?_, ?_, htail, ?_⟩
  · rw [hshape]
    rfl
  · rw [hshape, List.filter_cons_of_pos (by rfl), filter_eq_nil_of_all_false _ _ htail]
  · intro hd
    obtain ⟨created, hcr, hrun⟩ := captureTask_of_deadline_set logs address rfc3339 c hd
    rw [hrun]
    have hmem : Event.createFile (logFileName logs rfc3339 c) ∈ created := by
      rcases hcr with rfl | ⟨err, _, rfl⟩ <;> simp
    exact List.mem_append_left _ (List.mem_cons_of_mem _ hmem)

/-- An instance of C7: the deadline of `timedOutConn` is the time 15 s. -/
theorem deadline_set_once_witness :
    (captureTask (str "logs") (str "0.0.0.0:80") (fun _ => str "T") timedOutConn).head? =
      some (.setDeadline 15000000000) ∧
    Event.createFile (str "logs/T_10.0.0.1:80-10.0.0.2:555") ∈
      captureTask (str "logs") (str "0.0.0.0:80") (fun _ => str "T") timedOutConn :=
  ⟨(deadline_set_once (str "logs") (str "0.0.0.0:80") (fun _ => str "T") timedOutConn).1,
   (deadline_set_once (str "logs") (str "0.0.0.0:80") (fun _ => str "T") timedOutConn).2.2.2
     rfl⟩


/-- C8: whenever the transfer step of a capture task runs, the lines logged
after the start-of-connection notice are decided by the error `io.Copy`
returns.  For an error that is a `net.Error` with `Timeout()` true, exactly
the line `closing connection` is logged; for any other error, exactly the line
`error copying connection`; for no error (the end of the stream), no line at
all.  No event of the task ends the process. -/
theorem transfer_outcome_logged (logs address : GoString) (rfc3339 : Int → GoString)
    (c : Conn) (h : c.setDeadlineErr = none) :
    (∀ err, (ioCopy (destination c) c.final c.chunks).2 = some err →
      err.isNetError = true ∧ err.timeout = true →
      logLinesAfterStart (captureTask logs address rfc3339 c) =
        [.logPrint (.closingConnection (logFileName logs rfc3339 c))]) ∧
    (∀ err, (ioCopy (destination c) c.final c.chunks).2 = some err →
      ¬ (err.isNetError = true ∧ err.timeout = true) →
      logLinesAfterStart (captureTask logs address rfc3339 c) =
        [.logPrint (.errorCopying err)]) ∧
    ((ioCopy (destination c) c.final c.chunks).2 = none →
      logLinesAfterStart (captureTask logs address rfc3339 c) = []) ∧
    (∀ e ∈ captureTask logs address rfc3339 c, e.isFatal = false) := by
  obtain ⟨created, hcr, hrun⟩ := captureTask_of_deadline_set logs address rfc3339 c h
  have hpre : ∀ e ∈ Event.setDeadline (c.now + 10 * second) :: created,
      e.isStartNotice = false ∧ e.isFatal = false := by
    intro e he
    rcases List.mem_cons.1 he with rfl | he
    · exact ⟨rfl, rfl⟩
    · rcases hcr with rfl | ⟨err, _, rfl⟩
      · simp only [List.mem_singleton] at he
        subst he
        exact ⟨rfl, rfl⟩
      · simp only [List.mem_cons, List.mem_singleton, List.not_mem_nil, or_false] at he
        rcases he with rfl | rfl <;> exact ⟨rfl, rfl⟩
  have hafter : logLinesAfterStart (captureTask logs address rfc3339 c) =
      transferLog (logFileName logs rfc3339 c) (ioCopy (destination c) c.final c.chunks).2 := by
    unfold logLinesAfterStart
    rw [hrun, dropWhile_not_start_of_all_false _ _ _ (fun e he => (hpre e he).1)]
    simp only [List.drop_succ_cons, List.drop_zero, List.filter_append]
    rw [filter_eq_nil_of_all_false _ _ (fun e he => (ioCopy_events_plain _ _ _ e he).2.1),
      transferLog_all_log]
    simp only [List.nil_append, List.append_right_eq_self]
    rfl
  refine ⟨?_, ?_, ?_, ?_⟩
  · intro err herr hto
    rw [hafter, herr]
    simp only [transferLog, if_pos hto]
  · intro err herr hto
    rw [hafter, herr]
    simp only [transferLog, if_neg hto]
  · intro herr
    rw [hafter, herr]
    rfl
  · intro e he
    rw [hrun] at he
    simp only [List.mem_append, List.mem_cons, List.mem_singleton, List.not_mem_nil,
      or_false] at he
    rcases he with he | rfl | he | he | rfl | rfl
    · exact (hpre e (List.mem_cons.2 he)).2
    · rfl
    · exact (ioCopy_events_plain _ _ _ e he).2.2.2
    · exact (transferLog_no_fatal _ _ e he).1
    · rfl
    · rfl

/-- Instances of C8: a connection that runs into its deadline, one that is
reset and one that is closed by its peer. -/
theorem transfer_outcome_logged_witness :
    logLinesAfterStart
        (captureTask (str "logs") (str "0.0.0.0:80") (fun _ => str "T") timedOutConn) =
      [.logPrint (.closingConnection (str "logs/T_10.0.0.1:80-10.0.0.2:555"))] ∧
    logLinesAfterStart
        (captureTask (str "logs") (str "0.0.0.0:80") (fun _ => str "T") resetConn) =
      [.logPrint (.errorCopying ⟨str "connection reset by peer", true, false⟩)] ∧
    logLinesAfterStart
        (captureTask (str "logs") (str "0.0.0.0:80") (fun _ => str "T") closedConn) = [] :=
  ⟨(transfer_outcome_logged (str "logs") (str "0.0.0.0:80") (fun _ => str "T") timedOutConn
      rfl).1 ⟨str "i/o timeout", true, true⟩ (by decide) (by decide),
   (transfer_outcome_logged (str "logs") (str "0.0.0.0:80") (fun _ => str "T") resetConn
      rfl).2.1 ⟨str "connection reset by peer", true, false⟩ (by decide) (by decide),
   (transfer_outcome_logged (str "logs") (str "0.0.0.0:80") (fun _ => str "T") closedConn
      rfl).2.2.1 (by decide)⟩

/-- C9, as stated, fails: the log file of `noFileConn` cannot be created, and
the connection sends `"hello"` and `"world"` before it is closed by its peer.
The task logs the creation error and the start notice, but the transfer with
the nil file ends at once with an error that is logged as `error copying
connection`: the connection is never read, neither its data nor the end of
its stream, so it is not drained. -/
theorem create_failure_not_drained :
    (captureTask (str "logs") (str "0.0.0.0:80") (fun _ => str "T") noFileConn).all
      (fun e => !e.isRead) = true ∧
    Event.read (str "hello") ∉
      captureTask (str "logs") (str "0.0.0.0:80") (fun _ => str "T") noFileConn ∧
    Event.readEnd noFileConn.final ∉
      captureTask (str "logs") (str "0.0.0.0:80") (fun _ => str "T") noFileConn ∧
    (∃ err, logLinesAfterStart
        (captureTask (str "logs") (str "0.0.0.0:80") (fun _ => str "T") noFileConn) =
      [.logPrint (.errorCopying err)]) := by
  refine ⟨by decide, by decide, by decide, ErrNilFile, by decide⟩

/-- C9, amended.  When the creation of the log file fails, the capture task
logs the creation error, right after the call of `os.Create`, and no event of
the task ends the process.  When setting the deadline fails, the task logs
that error and ends: no file is created and the connection is not read. -/
theorem create_failure_logged (logs address : GoString) (rfc3339 : Int → GoString) :
    (∀ (c : Conn) (err : GoError), c.setDeadlineErr = none → c.createErr = some err →
      (captureTask logs address rfc3339 c).take 3 =
        [.setDeadline (c.now + 10 * second),
         .createFile (logFileName logs rfc3339 c),
         .logPrint (.errorCreatingLogfile (logFileName logs rfc3339 c) err)] ∧
      (∀ e ∈ captureTask logs address rfc3339 c, e.isFatal = false)) ∧
    (∀ (c : Conn) (err : GoError), c.setDeadlineErr = some err →
      captureTask logs address rfc3339 c =
        [.setDeadline (c.now + 10 * second),
         .logPrint (.errorSettingDeadline address err), .closeConn] ∧
      (∀ name, Event.createFile name ∉ captureTask logs address rfc3339 c) ∧
      (∀ e ∈ captureTask logs address rfc3339 c, e.isRead = false)) := by
  refine ⟨?_, ?_⟩
  · intro c err hd hc
    refine ⟨?_, ?_⟩
    · simp only [captureTask, hd, hc, List.cons_append, List.take_succ_cons, List.take_zero]
    · intro e he
      simp only [captureTask, hd, hc, List.cons_append, List.nil_append, List.mem_cons,
        List.mem_append, List.mem_singleton, List.not_mem_nil, or_false] at he
      rcases he with rfl | rfl | rfl | rfl | (he | he) | rfl | rfl
      · rfl
      · rfl
      · rfl
      · rfl
      · exact (ioCopy_events_plain _ _ _ e he).2.2.2
      · exact (transferLog_no_fatal _ _ e he).1
      · rfl
      · rfl
  · intro c err hd
    have hrun : captureTask logs address rfc3339 c =
        [.setDeadline (c.now + 10 * second),
         .logPrint (.errorSettingDeadline address err), .closeConn] := by
      simp only [captureTask, hd]
    refine ⟨hrun, ?_, ?_⟩
    · intro name hmem
      rw [hrun] at hmem
      simp at hmem
    · intro e he
      rw [hrun] at he
      simp only [List.mem_cons, List.mem_singleton, List.not_mem_nil, or_false] at he
      rcases he with rfl | rfl | rfl <;> rfl

/-- Instances of C9 as amended: `noFileConn`, whose creation error is logged,
and `noDeadlineConn`, whose task ends at once. -/
theorem create_failure_logged_witness :
    (captureTask (str "logs") (str "0.0.0.0:80") (fun _ => str "T") noFileConn).take 3 =
      [.setDeadline (noFileConn.now + 10 * second),
       .createFile (logFileName (str "logs") (fun _ => str "T") noFileConn),
       .logPrint (.errorCreatingLogfile (logFileName (str "logs") (fun _ => str "T") noFileConn)
         ⟨str "permission denied", false, false⟩)] ∧
    captureTask (str "logs") (str "0.0.0.0:80") (fun _ => str "T") noDeadlineConn =
      [.setDeadline (noDeadlineConn.now + 10 * second),
       .logPrint (.errorSettingDeadline (str "0.0.0.0:80")
         ⟨str "use of closed network connection", true, false⟩), .closeConn] :=
  ⟨((create_failure_logged (str "logs") (str "0.0.0.0:80") (fun _ => str "T")).1
      noFileConn ⟨str "permission denied", false, false⟩ rfl rfl).1,
   ((create_failure_logged (str "logs") (str "0.0.0.0:80") (fun _ => str "T")).2
      noDeadlineConn ⟨str "use of closed network connection", true, false⟩ rfl).1⟩

/-! ## Claims on the name of the log file -/

/-- C10, as stated, fails: the string `".."` is made of pass-through
characters only, so it sanitises to itself, and the name `path.Join` builds
from it under the directory `"logs"` is `"."`, the parent of the log directory
and no entry of it. -/
theorem dotdot_fragment_escapes :
    sanitize (str "..") = str ".." ∧
    Join [str "logs", sanitize (str "..")] = str "." ∧
    ¬ isDirectChild (str "logs") (Join [str "logs", sanitize (str "..")])
      (sanitize (str "..")) := by
  decide

/-- C10, amended.  For every string `s`: every character of the sanitised
string is `'_'` or lies in one of the pass-through ranges; so it holds no
`'/'`, no NUL, no whitespace and no control character (every character lies
strictly between the space and DEL); sanitising the result again returns it
unchanged; and whenever the sanitised string is none of `""`, `"."` and
`".."`, the name `path.Join` builds from it is an entry of the log directory.
The names of the capture task are such: their input `"%s_%s-%s"` contains
`'_'`. -/
theorem sanitized_fragment_safe (logs s : GoString) :
    (∀ c ∈ sanitize s, c = 95 ∨ (45 ≤ c ∧ c ≤ 46) ∨ (48 ≤ c ∧ c ≤ 58) ∨ (65 ≤ c ∧ c ≤ 126)) ∧
    (∀ c ∈ sanitize s, c ≠ 47 ∧ c ≠ 0 ∧ 32 < c ∧ c < 127) ∧
    sanitize (sanitize s) = sanitize s ∧
    (sanitize s ≠ str "" → sanitize s ≠ str "." → sanitize s ≠ str ".." →
      isDirectChild logs (Join [logs, sanitize s]) (sanitize s)) ∧
    (∀ (rfc3339 : Int → GoString) (c : Conn),
      isDirectChild logs (logFileName logs rfc3339 c)
        (sanitize (rfc3339 c.now ++ str "_" ++ c.localAddr ++ str "-" ++ c.remoteAddr))) := by
  refine ⟨sanitize_all_safe s, ?_, sanitize_of_all_safe _ (sanitize_all_safe s), ?_, ?_⟩
  · intro c hc
    have := sanitize_all_safe s c hc
    unfold isSafeChar at this
    omega
  · intro h1 h2 h3
    exact Join_plain_child logs _ (sanitize_isPlainElement s h1 h2 h3)
  · intro rfc3339 c
    exact Join_plain_child logs _ (sanitize_format_isPlainElement _ _ _)

/-- An instance of C10 as amended: the string `"a b/c\n"` under the log
directory `"logs"`. -/
theorem sanitized_fragment_safe_witness :
    sanitize (str "a b/c\n") = str "a_bc" ∧
    Join [str "logs", sanitize (str "a b/c\n")] = str "logs/a_bc" ∧
    isDirectChild (str "logs") (Join [str "logs", sanitize (str "a b/c\n")])
      (sanitize (str "a b/c\n")) :=
  ⟨by decide, by decide,
   (sanitized_fragment_safe (str "logs") (str "a b/c\n")).2.2.2.1
     (by decide) (by decide) (by decide)⟩

end Honey
